import Mathlib

/-!
Shallow embedding of the Localiser repository's diff/validate engine
(`src/localiser/validate.py`) and lease/commit store operations
(`src/localiser/db.py`), with theorems checking the specification's claims.
-/

namespace Localiser

/-- Character strings, modelled as lists of characters. -/
abbrev Str := List Char

/-- The universe of document values handled by the worker: JSON-ish trees as
they appear in Python after loading a MongoDB document (`None`, `bool`,
`int`, `str`, BSON datetimes, `list`, `dict`). -/
inductive Val where
  | vnull
  | vbool (b : Bool)
  | vint (n : Int)
  | vstr (s : Str)
  | vtime (t : Int)
  | varr (xs : List Val)
  | vobj (fs : List (Str × Val))

mutual

/-- Boolean equality on values. -/
def Val.beq : Val → Val → Bool
  | .vnull, .vnull => true
  | .vbool a, .vbool b => a = b
  | .vint a, .vint b => a = b
  | .vstr a, .vstr b => a = b
  | .vtime a, .vtime b => a = b
  | .varr xs, .varr ys => Val.beqList xs ys
  | .vobj fs, .vobj gs => Val.beqFields fs gs
  | _, _ => false

/-- Boolean equality on lists of values. -/
def Val.beqList : List Val → List Val → Bool
  | [], [] => true
  | x :: xs, y :: ys => Val.beq x y && Val.beqList xs ys
  | _, _ => false

/-- Boolean equality on field lists. -/
def Val.beqFields : List (Str × Val) → List (Str × Val) → Bool
  | [], [] => true
  | (k, v) :: fs, (l, w) :: gs => k = l && Val.beq v w && Val.beqFields fs gs
  | _, _ => false

end

mutual

theorem Val.beq_iff : ∀ a b : Val, Val.beq a b = true ↔ a = b
  | .vnull, b => by cases b <;> simp [Val.beq]
  | .vbool a, b => by cases b <;> simp [Val.beq]
  | .vint a, b => by cases b <;> simp [Val.beq]
  | .vstr a, b => by cases b <;> simp [Val.beq]
  | .vtime a, b => by cases b <;> simp [Val.beq]
  | .varr xs, b => by
      cases b <;> simp [Val.beq]
      exact Val.beqList_iff xs _
  | .vobj fs, b => by
      cases b <;> simp [Val.beq]
      exact Val.beqFields_iff fs _

theorem Val.beqList_iff : ∀ xs ys : List Val, Val.beqList xs ys = true ↔ xs = ys
  | [], ys => by cases ys <;> simp [Val.beqList]
  | x :: xs, ys => by
      cases ys with
      | nil => simp [Val.beqList]
      | cons y ys =>
          simp [Val.beqList, Bool.and_eq_true, Val.beq_iff x y, Val.beqList_iff xs ys]

theorem Val.beqFields_iff : ∀ fs gs : List (Str × Val), Val.beqFields fs gs = true ↔ fs = gs
  | [], gs => by cases gs <;> simp [Val.beqFields]
  | (k, v) :: fs, gs => by
      cases gs with
      | nil => simp [Val.beqFields]
      | cons g gs =>
          obtain ⟨l, w⟩ := g
          simp [Val.beqFields, Bool.and_eq_true, Val.beq_iff v w, Val.beqFields_iff fs gs,
            Prod.ext_iff, and_assoc]

end

instance : DecidableEq Val := fun a b =>
  decidable_of_iff (Val.beq a b = true) (Val.beq_iff a b)

/-- Python runtime type tag (`type(x)`); `bool` and `int` are distinct types. -/
def Val.tag : Val → Nat
  | .vnull => 0
  | .vbool _ => 1
  | .vint _ => 2
  | .vstr _ => 3
  | .vtime _ => 4
  | .varr _ => 5
  | .vobj _ => 6

/-- `_is_primitive` from validate.py: `None`, `str`, `int`, `float`, `bool`. -/
def is_primitive : Val → Bool
  | .vnull => true
  | .vbool _ => true
  | .vint _ => true
  | .vstr _ => true
  | _ => false

/-- `dict` lookup (Python `d[k]`); total with a default, only used under a
key-set-equality guard exactly as the KeyError-free Python access. -/
def lookupD (fs : List (Str × Val)) (k : Str) : Val :=
  match fs.find? (fun kv => kv.1 = k) with
  | some kv => kv.2
  | none => .vnull

/-- Map-descent path: Python `f"{path}.{k}" if path else k`. -/
def childPath (path k : Str) : Str := if path = [] then k else path ++ '.' :: k

/-- Decimal digit as a character. -/
def digitChar : Nat → Char
  | 0 => '0'
  | 1 => '1'
  | 2 => '2'
  | 3 => '3'
  | 4 => '4'
  | 5 => '5'
  | 6 => '6'
  | 7 => '7'
  | 8 => '8'
  | 9 => '9'
  | _ => '*'

/-- Decimal rendering of a natural number (Python `str(i)` for `i ≥ 0`). -/
def natDigits (n : Nat) : Str :=
  if n < 10 then [digitChar n] else natDigits (n / 10) ++ [digitChar (n % 10)]
  termination_by n
  decreasing_by exact Nat.div_lt_self (by omega) (by omega)

/-- Sequence-descent path: Python `f"{path}[{i}]"`. -/
def idxPath (path : Str) (i : Nat) : Str := path ++ '[' :: (natDigits i ++ [']'])

/-- The synthetic path marker for sequence-length divergences. -/
def lenMark : Str := "\x7blen\x7d".data

/-- The synthetic path marker for key-set divergences. -/
def keysMark : Str := "\x7bkeys\x7d".data

/-- A diff entry's payload: `(original_value, translated_value)` for value
entries, the two key sets for `keys` entries, the two lengths for `len`
entries (the Python code passes these as untyped tuple components). -/
inductive DiffV where
  | vals (ov tv : Val)
  | keys (okeys tkeys : List Str)
  | lens (olen tlen : Nat)
deriving DecidableEq

/-- A diff entry `(path, original_value, translated_value)`. -/
abbrev Entry := Str × DiffV

/-- Python `set(a) == set(b)` on key lists. -/
def keySetEq (a b : List Str) : Bool :=
  a.all (fun k => k ∈ b) && b.all (fun k => k ∈ a)

mutual

/-- `_walk_diff` from validate.py: yield `(path, original, translated)` for
any difference, with early-exit synthetic `{keys}`/`{len}` markers. -/
def walk_diff (original translated : Val) (path : Str) : List Entry :=
  if original.tag ≠ translated.tag then [(path, .vals original translated)]
  else
    match original, translated with
    | .vobj fs, .vobj gs =>
        if keySetEq (fs.map Prod.fst) (gs.map Prod.fst) then walkFields fs gs path
        else [(path ++ keysMark, .keys (fs.map Prod.fst) (gs.map Prod.fst))]
    | .varr xs, .varr ys =>
        if xs.length ≠ ys.length then [(path ++ lenMark, .lens xs.length ys.length)]
        else walkElems xs ys 0 path
    | o, t => if o ≠ t then [(path, .vals o t)] else []

/-- The `for k in original.keys(): yield from _walk_diff(original[k], translated[k], …)`
loop of `_walk_diff`. -/
def walkFields : List (Str × Val) → List (Str × Val) → Str → List Entry
  | [], _, _ => []
  | (k, v) :: fs, gs, path => walk_diff v (lookupD gs k) (childPath path k) ++ walkFields fs gs path

/-- The `for i, (ov, tv) in enumerate(zip(original, translated))` loop of
`_walk_diff`. -/
def walkElems : List Val → List Val → Nat → Str → List Entry
  | [], _, _, _ => []
  | _ :: _, [], _, _ => []
  | x :: xs, y :: ys, i, path => walk_diff x y (idxPath path i) ++ walkElems xs ys (i + 1) path

end

/-- `DiffResult` from validate.py. -/
structure DiffResult where
  changed_paths : List Str
  set_ops : List (Str × Val)
deriving DecidableEq

/-- `_is_internal_field` from validate.py. -/
def is_internal_field (path : Str) : Bool :=
  "_localiser".data.isPrefixOf path || path = "_ts".data

/-- Python substring test `needle in haystack`. -/
def substrOf (needle haystack : Str) : Bool :=
  haystack.tails.any (fun t => needle.isPrefixOf t)

/-- Mongo dot notation: Python `path.replace("[", ".").replace("]", "")`. -/
def mongoPath (p : Str) : Str :=
  (p.map (fun c => if c = '[' then '.' else c)).filter (fun c => ¬ c = ']')

/-- Python dict assignment `d[k] = v`: overwrite the entry in place (keys of
a dict are unique, so the first match is the only one), else append. -/
def dictInsert : List (Str × Val) → Str → Val → List (Str × Val)
  | [], k, v => [(k, v)]
  | kv :: so, k, v => if kv.1 = k then (k, v) :: so else kv :: dictInsert so k v

/-- How `validate_and_build_patch`'s loop body treats one diff entry:
skip it, record a patch, or raise `ValidationError msg`. -/
inductive Verdict where
  | skip
  | patch (path mpath : Str) (v : Val)
  | fail (msg : Str)
deriving DecidableEq

/-- The body of the `for path, ov, tv in _walk_diff(...)` loop in
`validate_and_build_patch`, branch for branch. -/
def entry_verdict (locale_field : Str) (e : Entry) : Verdict :=
  if e.1 = locale_field then .skip
  else if is_internal_field e.1 then .skip
  else if substrOf lenMark e.1 then .fail ("Structure changed at ".data ++ e.1)
  else if substrOf keysMark e.1 then
    match e.2 with
    | .keys okeys tkeys =>
        if (¬ okeys.filter (fun k => ¬ k ∈ tkeys) = [] ∨ ¬ tkeys.filter (fun k => ¬ k ∈ okeys) = []) ∧
            (okeys.filter (fun k => ¬ k ∈ tkeys)).all (fun k => "_localiser".data.isPrefixOf k) ∧
            (tkeys.filter (fun k => ¬ k ∈ okeys)).all (fun k => "_localiser".data.isPrefixOf k) then
          .skip
        else .fail ("Structure changed at ".data ++ e.1)
    | _ => .fail ("Structure changed at ".data ++ e.1)
  else
    match e.2 with
    | .vals ov tv =>
        if ov.tag ≠ tv.tag then
          match tv with
          | .vstr _ => .skip
          | _ => .fail ("Type changed at ".data ++ e.1)
        else
          match ov, tv with
          | .vstr a, .vstr b =>
              if a = b then .skip else .patch e.1 (mongoPath e.1) (.vstr b)
          | _, _ => .skip
    | _ => .skip

/-- The entry-consuming loop of `validate_and_build_patch`, threading the
`changed_paths` and `set_ops` accumulators and short-circuiting on
`ValidationError`. -/
def run_entries (locale_field : Str) :
    List Entry → List Str → List (Str × Val) → Except Str DiffResult
  | [], cp, so => .ok ⟨cp, so⟩
  | e :: es, cp, so =>
      match entry_verdict locale_field e with
      | .skip => run_entries locale_field es cp so
      | .patch p mp v => run_entries locale_field es (cp ++ [p]) (dictInsert so mp v)
      | .fail m => .error m

instance {ε α : Type} [DecidableEq ε] [DecidableEq α] : DecidableEq (Except ε α) := fun a b =>
  match a, b with
  | .ok x, .ok y => if h : x = y then .isTrue (by rw [h]) else .isFalse (by simp [h])
  | .error x, .error y => if h : x = y then .isTrue (by rw [h]) else .isFalse (by simp [h])
  | .ok _, .error _ => .isFalse (by simp)
  | .error _, .ok _ => .isFalse (by simp)

/-- `validate_and_build_patch` from validate.py: `.error msg` models raising
`ValidationError(msg)`. -/
def validate_and_build_patch (original_doc translated_doc : Val) (locale_field : Str) :
    Except Str DiffResult :=
  match translated_doc with
  | .vobj _ => run_entries locale_field (walk_diff original_doc translated_doc []) [] []
  | _ => .error "translated_document must be an object".data

/-!
### Store model (db.py)

The repository talks to a MongoDB collection through pymongo; the store
itself is an external collaborator (spec §6).  The document-store
primitives used by db.py are modelled from the spec here: an atomic
"filter, sort by `_id` ascending, set, return updated" operation and a
plain conditional `update_one` returning a modified count, with Mongo's
dotted-path field resolution and type-bracketed `$lt` on nested fields.
-/

/-- A stored document: an opaque identifier (Mongo `_id`, totally ordered)
plus its fields. -/
structure MDoc where
  id : Int
  fields : List (Str × Val)
deriving DecidableEq

/-- Top-level field read. -/
def getF (fs : List (Str × Val)) (k : Str) : Option Val :=
  (fs.find? (fun kv => kv.1 = k)).map (fun kv => kv.2)

/-- Modelled from the spec: Mongo `$set` of one top-level field (the store's
conditional-update primitive); overwrites the field in place (document field
names are unique), else appends. -/
def setF : List (Str × Val) → Str → Val → List (Str × Val)
  | [], k, v => [(k, v)]
  | kv :: fs, k, v => if kv.1 = k then (k, v) :: fs else kv :: setF fs k v

/-- Modelled from the spec: Mongo `$unset` of one top-level field. -/
def unsetF (fs : List (Str × Val)) (k : Str) : List (Str × Val) :=
  fs.filter (fun kv => ¬ kv.1 = k)

/-- The lease sub-record `{owner, lockedAt, expiresAt}` written by `claim_one`. -/
def leaseVal (owner : Str) (lockedAt expiresAt : Int) : Val :=
  .vobj [("owner".data, .vstr owner), ("lockedAt".data, .vtime lockedAt),
    ("expiresAt".data, .vtime expiresAt)]

/-- Modelled from the spec: the `lock_available_filter` of `claim_one` under
Mongo semantics — `lock_field` absent, or `lock_field.expiresAt` a timestamp
strictly before `now` (a missing or non-timestamp nested value never
satisfies `$lt now`). -/
def lockAvailable (lock_field : Str) (now : Int) (fs : List (Str × Val)) : Bool :=
  match getF fs lock_field with
  | none => true
  | some (.vobj lk) =>
      match getF lk "expiresAt".data with
      | some (.vtime t) => t < now
      | _ => false
  | some _ => false

/-- Modelled from the spec: the `not_errored_filter` of `claim_one` —
`error_field` absent or null. -/
def notErrored (error_field : Str) (fs : List (Str × Val)) : Bool :=
  match getF fs error_field with
  | none => true
  | some .vnull => true
  | some _ => false

/-- The filter `claim_one` actually issues.  The Python dict literal
`{locale_field: source_locale, **lock_available_filter, **not_errored_filter}`
(db.py:59) unpacks two sub-filters that BOTH consist of a single key `$or`,
so the second unpacking overwrites the first: the merged dict is
`{locale_field: source_locale, "$or": [error absent, error null]}` and the
lease-availability condition built at db.py:41-46 is dropped from the query.
The issued filter therefore checks only the locale equality and the
not-errored condition, never the lease.  (`lock_field` and `now` are kept in
the signature because the source computes and intends to use them.) -/
def claimFilter (locale_field source_locale lock_field error_field : Str) (now : Int)
    (d : MDoc) : Bool :=
  getF d.fields locale_field = some (.vstr source_locale)
    && notErrored error_field d.fields

/-- The eligibility predicate the spec describes for `claim_one`: locale
matches the source locale, no unexpired lease, no error record.  The code
builds `lock_available_filter` for the middle conjunct but loses it in the
dict merge at db.py:59, so this predicate differs from `claimFilter`. -/
def eligibleSpec (locale_field source_locale lock_field error_field : Str) (now : Int)
    (d : MDoc) : Bool :=
  getF d.fields locale_field = some (.vstr source_locale)
    && lockAvailable lock_field now d.fields
    && notErrored error_field d.fields

/-- Modelled from the spec: `find_one_and_update`'s document selection with
`sort=[("_id", 1)]` — the first matching document in ascending `_id` order. -/
def findMinBy (p : MDoc → Bool) (docs : List MDoc) : Option MDoc :=
  (docs.filter p).foldl
    (fun acc d =>
      match acc with
      | none => some d
      | some b => if d.id < b.id then some d else some b)
    none

/-- Replace the documents carrying the given identifier. -/
def replaceById (docs : List MDoc) (i : Int) (d' : MDoc) : List MDoc :=
  docs.map (fun x => if x.id = i then d' else x)

/-- `claim_one` from db.py over the modelled store.  `now` stands for
`utcnow()` and `owner` for the fresh `str(uuid4())` token; the function
returns the `Claim` (post-update document, `ReturnDocument.AFTER`) together
with the updated store. -/
def claim_one (docs : List MDoc) (locale_field source_locale lock_field : Str)
    (lock_lease_s : Int) (error_field : Str) (now : Int) (owner : Str) :
    Option (Str × MDoc) × List MDoc :=
  let expires_at := now + lock_lease_s
  match findMinBy (claimFilter locale_field source_locale lock_field error_field now) docs with
  | none => (none, docs)
  | some d =>
      let d' : MDoc := ⟨d.id, setF d.fields lock_field (leaseVal owner now expires_at)⟩
      (some (owner, d'), replaceById docs d.id d')

/-- Modelled from the spec: `update_one` — update the first matching
document; the modified count is 1 when a document matched and the update
actually changed it, else 0. -/
def updateFirst (p : MDoc → Bool) (f : MDoc → MDoc) : List MDoc → List MDoc × Nat
  | [] => ([], 0)
  | d :: ds =>
      if p d then (f d :: ds, if f d = d then 0 else 1)
      else
        let r := updateFirst p f ds
        (d :: r.1, r.2)

/-- The ownership filter `{"_id": _id, f"{lock_field}.owner": owner}` used by
`unlock_with_error` and `apply_patch_and_finish`. -/
def ownerFilter (lock_field owner : Str) (i : Int) (d : MDoc) : Bool :=
  d.id = i
    && (match getF d.fields lock_field with
        | some (.vobj lk) => getF lk "owner".data = some (.vstr owner)
        | _ => false)

/-- `unlock_with_error` from db.py: conditioned on lease ownership, set the
error record `{message, at}` and unset the lease. -/
def unlock_with_error (docs : List MDoc) (i : Int) (lock_field owner error_field : Str)
    (error_message : Str) (now : Int) : List MDoc × Nat :=
  updateFirst (ownerFilter lock_field owner i)
    (fun d =>
      ⟨d.id,
        unsetF
          (setF d.fields error_field
            (.vobj [("message".data, .vstr error_message), ("at".data, .vtime now)]))
          lock_field⟩)
    docs

/-- Decimal digit value of a character (10 for non-digits). -/
def digitVal : Char → Nat
  | '0' => 0
  | '1' => 1
  | '2' => 2
  | '3' => 3
  | '4' => 4
  | '5' => 5
  | '6' => 6
  | '7' => 7
  | '8' => 8
  | '9' => 9
  | _ => 10

/-- Parse a decimal segment. -/
def parseNat (s : Str) : Nat := s.foldl (fun a c => a * 10 + digitVal c) 0

/-- A nonempty all-digit path segment (a Mongo array index). -/
def isNumSeg (s : Str) : Bool := ¬ s = [] && s.all (fun c => digitVal c < 10)

/-- Modelled from the spec: Mongo `$set` along a dotted path below a value.
Objects are descended by key (created when absent), arrays by in-range
numeric index; setting through an incompatible value leaves it unchanged
(validated patches never do this). -/
def setPathV (v : Val) : List Str → Val → Val
  | [], _ => v
  | [k], x =>
      match v with
      | .vobj fs => .vobj (setF fs k x)
      | .varr xs =>
          if isNumSeg k ∧ parseNat k < xs.length then .varr (xs.set (parseNat k) x)
          else .varr xs
      | w => w
  | k :: k' :: rest, x =>
      match v with
      | .vobj fs =>
          match getF fs k with
          | some w => .vobj (setF fs k (setPathV w (k' :: rest) x))
          | none => .vobj (setF fs k (setPathV (.vobj []) (k' :: rest) x))
      | .varr xs =>
          if h : isNumSeg k ∧ parseNat k < xs.length then
            .varr (xs.set (parseNat k) (setPathV (xs.get ⟨parseNat k, h.2⟩) (k' :: rest) x))
          else .varr xs
      | w => w

/-- Mongo `$set` of one dotted path at the top level of a document. -/
def setPathF (fs : List (Str × Val)) (segs : List Str) (x : Val) : List (Str × Val) :=
  match segs with
  | [] => fs
  | [k] => setF fs k x
  | k :: k' :: rest =>
      match getF fs k with
      | some w => setF fs k (setPathV w (k' :: rest) x)
      | none => setF fs k (setPathV (.vobj []) (k' :: rest) x)

/-- Split a dotted path into segments. -/
def splitDots (p : Str) : List Str := p.splitOn '.'

/-- Apply a `$set` document (path ↦ value, in order) to a document's fields. -/
def applyOps (fs : List (Str × Val)) (ops : List (Str × Val)) : List (Str × Val) :=
  ops.foldl (fun acc kv => setPathF acc (splitDots kv.1) kv.2) fs

/-- Read along a dotted path below a value (the observation dual to
`setPathV`): objects are descended by key, arrays by in-range numeric
index. -/
def getPathV (v : Val) : List Str → Option Val
  | [] => some v
  | k :: rest =>
      match v with
      | .vobj fs =>
          match getF fs k with
          | some w => getPathV w rest
          | none => none
      | .varr xs =>
          if h : isNumSeg k ∧ parseNat k < xs.length then
            getPathV (xs.get ⟨parseNat k, h.2⟩) rest
          else none
      | _ => none

/-- Read a dotted path at the top level of a document. -/
def getPathF (fs : List (Str × Val)) : List Str → Option Val
  | [] => none
  | k :: rest =>
      match getF fs k with
      | some w => getPathV w rest
      | none => none

/-- The dotted path navigates the value without hitting an incompatible node:
along it every object key either exists or is freshly created, and every
array step is an in-range numeric index.  Exactly the successful navigation
of `setPathV`. -/
def canSetPathV (v : Val) : List Str → Bool
  | [] => false
  | [k] =>
      match v with
      | .vobj _ => true
      | .varr xs => isNumSeg k && decide (parseNat k < xs.length)
      | _ => false
  | k :: k' :: rest =>
      match v with
      | .vobj fs =>
          match getF fs k with
          | some w => canSetPathV w (k' :: rest)
          | none => true
      | .varr xs =>
          if h : isNumSeg k ∧ parseNat k < xs.length then
            canSetPathV (xs.get ⟨parseNat k, h.2⟩) (k' :: rest)
          else false
      | _ => false

/-- `canSetPathV` at the top level of a document. -/
def canSetPathF (fs : List (Str × Val)) : List Str → Bool
  | [] => false
  | [_] => true
  | k :: k' :: rest =>
      match getF fs k with
      | some w => canSetPathV w (k' :: rest)
      | none => true

/-- Two segment lists address independent locations: neither is a prefix of
the other (leaf-derived patch paths always satisfy this pairwise). -/
def pathsIndep (s1 s2 : List Str) : Prop := ¬ s1 <+: s2 ∧ ¬ s2 <+: s1

instance (s1 s2 : List Str) : Decidable (pathsIndep s1 s2) := by
  unfold pathsIndep
  infer_instance

/-- A numeric-looking segment is in canonical decimal form (no leading
zeros); segments produced by the validator's index paths always are. -/
def canonNum (s : Str) : Prop := isNumSeg s = true → s = natDigits (parseNat s)

instance (s : Str) : Decidable (canonNum s) := by
  unfold canonNum
  infer_instance

/-- `apply_patch_and_finish` from db.py: conditioned on lease ownership,
`$set` every patch path plus the locale field (to the target locale) plus the
processed timestamp, `$unset` the lease when `unset_lock`, and return the
updated store with the modified count. -/
def apply_patch_and_finish (docs : List MDoc) (i : Int) (lock_field owner locale_field : Str)
    (target_locale : Str) (processed_mark_field : Str) (set_ops : List (Str × Val))
    (unset_lock : Bool) (now : Int) : List MDoc × Nat :=
  let merged :=
    dictInsert (dictInsert set_ops locale_field (.vstr target_locale)) processed_mark_field
      (.vtime now)
  updateFirst (ownerFilter lock_field owner i)
    (fun d =>
      let fs1 := applyOps d.fields merged
      ⟨d.id, if unset_lock then unsetF fs1 lock_field else fs1⟩)
    docs

/-!
### Specification-side notions for the string-only-changes claim

These definitions follow the spec's words ("candidate that changes only
string leaves", "paths of the changed string leaves in traversal order") and
are compared against the behaviour of `validate_and_build_patch`.
-/

/-- `StrOnly o t`: the candidate `t` differs from the original `o` only at
string leaves — same runtime types everywhere, same map key sets, same
sequence lengths, non-string leaves unchanged. -/
inductive StrOnly : Val → Val → Prop where
  | null : StrOnly .vnull .vnull
  | bool (b : Bool) : StrOnly (.vbool b) (.vbool b)
  | int (n : Int) : StrOnly (.vint n) (.vint n)
  | time (t : Int) : StrOnly (.vtime t) (.vtime t)
  | str (a b : Str) : StrOnly (.vstr a) (.vstr b)
  | arr (xs ys : List Val) : xs.length = ys.length →
      (∀ p ∈ xs.zip ys, StrOnly p.1 p.2) → StrOnly (.varr xs) (.varr ys)
  | obj (fs gs : List (Str × Val)) :
      keySetEq (fs.map Prod.fst) (gs.map Prod.fst) = true →
      (∀ kv ∈ fs, StrOnly kv.2 (lookupD gs kv.1)) → StrOnly (.vobj fs) (.vobj gs)

mutual

/-- The changed string leaves of a candidate against an original, as
`(path, original string, candidate string)` triples in traversal order. -/
def changedStringLeaves (o t : Val) (path : Str) : List (Str × Str × Str) :=
  match o, t with
  | .vstr a, .vstr b => if a = b then [] else [(path, a, b)]
  | .vobj fs, .vobj gs => cslFields fs gs path
  | .varr xs, .varr ys => cslElems xs ys 0 path
  | _, _ => []

/-- Map case of `changedStringLeaves`, in key-traversal order. -/
def cslFields : List (Str × Val) → List (Str × Val) → Str → List (Str × Str × Str)
  | [], _, _ => []
  | (k, v) :: fs, gs, path =>
      changedStringLeaves v (lookupD gs k) (childPath path k) ++ cslFields fs gs path

/-- Sequence case of `changedStringLeaves`, in index order. -/
def cslElems : List Val → List Val → Nat → Str → List (Str × Str × Str)
  | [], _, _, _ => []
  | _ :: _, [], _, _ => []
  | x :: xs, y :: ys, i, path => changedStringLeaves x y (idxPath path i) ++ cslElems xs ys (i + 1) path

end

mutual

/-- The changed string leaves' store paths relative to a node, in traversal
order: each element is the Mongo-dotted suffix to append below the node's
own store path. -/
def relMongo (o t : Val) : List Str :=
  match o, t with
  | .vstr a, .vstr b => if a = b then [] else [[]]
  | .vobj fs, .vobj gs => relFields fs gs
  | .varr xs, .varr ys => relElems xs ys 0
  | _, _ => []

/-- Map case of `relMongo`. -/
def relFields : List (Str × Val) → List (Str × Val) → List Str
  | [], _ => []
  | (k, v) :: fs, gs =>
      (relMongo v (lookupD gs k)).map (fun r => '.' :: (k ++ r)) ++ relFields fs gs

/-- Sequence case of `relMongo`. -/
def relElems : List Val → List Val → Nat → List Str
  | [], _, _ => []
  | _ :: _, [], _ => []
  | x :: xs, y :: ys, i =>
      (relMongo x y).map (fun r => '.' :: (natDigits i ++ r)) ++ relElems xs ys (i + 1)

end

/-- A map key free of the path metacharacters `. [ ] { }` and nonempty. -/
def cleanKey (k : Str) : Bool :=
  ¬ k = [] && k.all (fun c => ¬ c = '.' ∧ ¬ c = '[' ∧ ¬ c = ']' ∧ ¬ c = '{' ∧ ¬ c = '}')

mutual

/-- Well-formed document: every map has pairwise-distinct, clean keys. -/
def cleanKeys (v : Val) : Bool :=
  match v with
  | .vobj fs => (fs.map Prod.fst).Nodup && cleanFields fs
  | .varr xs => cleanElems xs
  | _ => true

/-- Map case of `cleanKeys`. -/
def cleanFields : List (Str × Val) → Bool
  | [] => true
  | (k, v) :: fs => cleanKey k && cleanKeys v && cleanFields fs

/-- Sequence case of `cleanKeys`. -/
def cleanElems : List Val → Bool
  | [] => true
  | x :: xs => cleanKeys x && cleanElems xs

end

/-- A path string free of brace characters. -/
def braceFree (p : Str) : Bool := p.all (fun c => ¬ c = '{' ∧ ¬ c = '}')

/-!
### Supporting lemmas
-/

theorem getF_cons (kv : Str × Val) (fs : List (Str × Val)) (k : Str) :
    getF (kv :: fs) k = if kv.1 = k then some kv.2 else getF fs k := by
  by_cases h : kv.1 = k <;> simp [getF, List.find?_cons, h]

theorem getF_setF_self : ∀ (fs : List (Str × Val)) (k : Str) (v : Val),
    getF (setF fs k v) k = some v
  | [], k, v => by simp [setF, getF]
  | kv :: fs, k, v => by
      by_cases h : kv.1 = k
      · simp [setF, h, getF_cons]
      · simp [setF, h, getF_cons, getF_setF_self fs k v]

theorem getF_setF_ne : ∀ (fs : List (Str × Val)) (k : Str) (v : Val) (k' : Str),
    ¬ k' = k → getF (setF fs k v) k' = getF fs k'
  | [], k, v, k', h => by
      have h' : ¬ k = k' := fun hh => h hh.symm
      simp [setF, getF_cons, getF, h']
  | kv :: fs, k, v, k', h => by
      have h' : ¬ k = k' := fun hh => h hh.symm
      by_cases hk : kv.1 = k
      · subst hk
        simp [setF, getF_cons, h']
      · simp [setF, hk, getF_cons, getF_setF_ne fs k v k' h]

theorem unsetF_cons (kv : Str × Val) (fs : List (Str × Val)) (k : Str) :
    unsetF (kv :: fs) k = if kv.1 = k then unsetF fs k else kv :: unsetF fs k := by
  by_cases h : kv.1 = k <;> simp [unsetF, List.filter_cons, h]

theorem getF_unsetF_self (fs : List (Str × Val)) (k : Str) : getF (unsetF fs k) k = none := by
  induction fs with
  | nil => simp [unsetF, getF]
  | cons kv fs ih =>
      rw [unsetF_cons]
      by_cases h : kv.1 = k
      · simpa [h] using ih
      · simp [h, getF_cons, ih]

theorem getF_unsetF_ne (fs : List (Str × Val)) (k k' : Str) (h : ¬ k' = k) :
    getF (unsetF fs k) k' = getF fs k' := by
  induction fs with
  | nil => simp [unsetF]
  | cons kv fs ih =>
      rw [unsetF_cons]
      by_cases hk : kv.1 = k
      · have hk' : ¬ kv.1 = k' := by
          rw [hk]
          exact fun hh => h hh.symm
        have hkk' : ¬ k = k' := fun hh => h hh.symm
        simp [hk, getF_cons, hk', hkk', ih]
      · simp [hk, getF_cons, ih]

theorem dictInsert_absent : ∀ (so : List (Str × Val)) (k : Str) (v : Val),
    ¬ k ∈ so.map Prod.fst → dictInsert so k v = so ++ [(k, v)]
  | [], k, v, _ => rfl
  | kv :: so, k, v, h => by
      have h1 : ¬ kv.1 = k := by
        intro he
        apply h
        rw [List.map_cons, ← he]
        exact List.mem_cons_self _ _
      have h2 : ¬ k ∈ so.map Prod.fst := by
        intro hm
        apply h
        rw [List.map_cons]
        exact List.mem_cons_of_mem _ hm
      simp [dictInsert, h1, dictInsert_absent so k v h2]

theorem getF_keyed : ∀ (l : List (Str × Val)), (l.map Prod.fst).Nodup →
    ∀ kv ∈ l, getF l kv.1 = some kv.2 := by
  intro l
  induction l with
  | nil =>
      intro _ kv h
      cases h
  | cons x l ih =>
      intro hnd kv h
      rw [List.map_cons, List.nodup_cons] at hnd
      rcases List.mem_cons.mp h with he | hm
      · subst he
        simp [getF_cons]
      · have hx : ¬ x.1 = kv.1 := by
          intro he
          exact hnd.1 (he ▸ List.mem_map_of_mem Prod.fst hm)
        simp [getF_cons, hx, ih hnd.2 kv hm]

theorem substrOf_iff (n h : Str) : substrOf n h = true ↔ n <:+: h := by
  simp only [substrOf, List.any_eq_true, List.mem_tails, List.isPrefixOf_iff_prefix]
  constructor
  · rintro ⟨t, hsuff, hpre⟩
    exact hpre.isInfix.trans hsuff.isInfix
  · intro hi
    rcases List.infix_iff_prefix_suffix.mp hi with ⟨t, hpre, hsuff⟩
    exact ⟨t, hsuff, hpre⟩

theorem substrOf_suffix (n q : Str) : substrOf n (q ++ n) = true :=
  (substrOf_iff n (q ++ n)).mpr (List.suffix_append q n).isInfix

theorem substrOf_braceFree (p n : Str) (hb : braceFree p = true) (hn : '{' ∈ n) :
    substrOf n p = false := by
  by_contra hc
  have ht : substrOf n p = true := by
    cases hsub : substrOf n p
    · exact absurd hsub hc
    · rfl
  have : '{' ∈ p := ((substrOf_iff n p).mp ht).sublist.subset hn
  have := (List.all_eq_true.mp hb) _ this
  simp at this

theorem braceMem_lenMark : '{' ∈ lenMark := by decide

theorem braceMem_keysMark : '{' ∈ keysMark := by decide

theorem mongoPath_append (p q : Str) : mongoPath (p ++ q) = mongoPath p ++ mongoPath q := by
  simp [mongoPath]

theorem mongoPath_dot (p : Str) : mongoPath ('.' :: p) = '.' :: mongoPath p := by
  simp [mongoPath]

theorem mongoPath_cons_keep (c : Char) (p : Str) (h1 : ¬ c = '[') (h2 : ¬ c = ']') :
    mongoPath (c :: p) = c :: mongoPath p := by
  simp [mongoPath, List.filter_cons, h1, h2]

theorem mongoPath_clean : ∀ k : Str, (∀ c ∈ k, ¬ c = '[' ∧ ¬ c = ']') → mongoPath k = k := by
  intro k
  induction k with
  | nil =>
      intro
      rfl
  | cons c k ih =>
      intro h
      have hc := h c (by simp)
      rw [mongoPath_cons_keep c k hc.1 hc.2, ih (fun x hx => h x (List.mem_cons_of_mem _ hx))]

theorem digitVal_digitChar (n : Nat) (h : n < 10) : digitVal (digitChar n) = n := by
  interval_cases n <;> rfl

theorem natDigits_digit : ∀ n : Nat, ∀ c ∈ natDigits n, digitVal c < 10 := by
  intro n
  induction n using Nat.strong_induction_on with
  | _ n ih =>
      intro c hc
      by_cases h : n < 10
      · rw [natDigits, if_pos h] at hc
        simp at hc
        subst hc
        rw [digitVal_digitChar n h]
        exact h
      · rw [natDigits, if_neg h] at hc
        rcases List.mem_append.mp hc with h1 | h2
        · exact ih (n / 10) (Nat.div_lt_self (by omega) (by omega)) c h1
        · simp at h2
          subst h2
          rw [digitVal_digitChar (n % 10) (Nat.mod_lt n (by omega))]
          exact Nat.mod_lt n (by omega)

theorem natDigits_notMeta : ∀ n : Nat, ∀ c ∈ natDigits n,
    ¬ c = '.' ∧ ¬ c = '[' ∧ ¬ c = ']' ∧ ¬ c = '{' ∧ ¬ c = '}' := by
  intro n c hc
  have h := natDigits_digit n c hc
  refine ⟨?_, ?_, ?_, ?_, ?_⟩ <;> intro he <;> subst he <;> exact absurd h (by decide)

theorem natDigits_ne_nil (n : Nat) : ¬ natDigits n = [] := by
  rw [natDigits]
  by_cases h : n < 10 <;> simp [h]

theorem parseNat_append (s : Str) (c : Char) :
    parseNat (s ++ [c]) = parseNat s * 10 + digitVal c := by
  simp [parseNat, List.foldl_append]

theorem parseNat_natDigits : ∀ n : Nat, parseNat (natDigits n) = n := by
  intro n
  induction n using Nat.strong_induction_on with
  | _ n ih =>
      by_cases h : n < 10
      · rw [natDigits, if_pos h]
        simp [parseNat]
        exact digitVal_digitChar n h
      · rw [natDigits, if_neg h, parseNat_append,
          ih (n / 10) (Nat.div_lt_self (by omega) (by omega)),
          digitVal_digitChar (n % 10) (Nat.mod_lt n (by omega))]
        omega

theorem natDigits_inj (i j : Nat) (h : natDigits i = natDigits j) : i = j := by
  have hi := parseNat_natDigits i
  rw [h, parseNat_natDigits j] at hi
  exact hi.symm

theorem seg_sep_inj : ∀ (s1 s2 t1 t2 : Str),
    (∀ c ∈ s1, ¬ c = '.') → (∀ c ∈ s2, ¬ c = '.') →
    (t1 = [] ∨ ∃ r, t1 = '.' :: r) → (t2 = [] ∨ ∃ r, t2 = '.' :: r) →
    s1 ++ t1 = s2 ++ t2 → s1 = s2 ∧ t1 = t2 := by
  intro s1
  induction s1 with
  | nil =>
      intro s2 t1 t2 _ h2 ht1 _ heq
      cases s2 with
      | nil => simpa using heq
      | cons b s2' =>
          exfalso
          simp only [List.nil_append, List.cons_append] at heq
          rcases ht1 with rfl | ⟨r, rfl⟩
          · exact absurd heq.symm (List.cons_ne_nil b (s2' ++ t2))
          · have hb : b = '.' := by
              have := heq
              injection this with h1 _
              exact h1.symm
            exact h2 b (by simp) hb
  | cons a s1' ih =>
      intro s2 t1 t2 h1 h2 ht1 ht2 heq
      cases s2 with
      | nil =>
          exfalso
          simp only [List.nil_append, List.cons_append] at heq
          rcases ht2 with rfl | ⟨r, rfl⟩
          · exact absurd heq (List.cons_ne_nil a (s1' ++ t1))
          · have ha : a = '.' := by
              injection heq with h1 _
            exact h1 a (by simp) ha
      | cons b s2' =>
          simp only [List.cons_append] at heq
          have hab : a = b := by
            injection heq with hx _
          have htl : s1' ++ t1 = s2' ++ t2 := by
            injection heq with _ hx
          obtain ⟨hs, ht⟩ := ih s2' t1 t2 (fun c hc => h1 c (by simp [hc]))
            (fun c hc => h2 c (by simp [hc])) ht1 ht2 htl
          exact ⟨by rw [hab, hs], ht⟩

theorem splitDots_single (s : Str) (h : ∀ c ∈ s, ¬ c = '.') : splitDots s = [s] := by
  unfold splitDots List.splitOn
  exact List.splitOnP_eq_single _ _ (fun x hx => by simp [h x hx])

theorem entry_verdict_len (lf p : Str) (dv : DiffV) (h1 : ¬ p = lf)
    (h2 : is_internal_field p = false) (h3 : substrOf lenMark p = true) :
    entry_verdict lf (p, dv) = .fail ("Structure changed at ".data ++ p) := by
  simp [entry_verdict, h1, h2, h3]

theorem entry_verdict_keys_fail (lf p : Str) (okeys tkeys : List Str) (h1 : ¬ p = lf)
    (h2 : is_internal_field p = false) (h3 : substrOf lenMark p = false)
    (h4 : substrOf keysMark p = true)
    (h5 : ∃ k, ((k ∈ okeys ∧ ¬ k ∈ tkeys) ∨ (k ∈ tkeys ∧ ¬ k ∈ okeys)) ∧
      "_localiser".data.isPrefixOf k = false) :
    entry_verdict lf (p, .keys okeys tkeys) = .fail ("Structure changed at ".data ++ p) := by
  simp only [entry_verdict, h1, h2, h3, h4, if_neg, if_false, Bool.false_eq_true,
    if_true]
  rw [if_neg]
  rintro ⟨-, hall1, hall2⟩
  rcases h5 with ⟨k, hk, hpre⟩
  rcases hk with ⟨hin, hout⟩ | ⟨hin, hout⟩
  · have := List.all_eq_true.mp hall1 k (List.mem_filter.mpr ⟨hin, by simpa using hout⟩)
    simp [hpre] at this
  · have := List.all_eq_true.mp hall2 k (List.mem_filter.mpr ⟨hin, by simpa using hout⟩)
    simp [hpre] at this

theorem entry_verdict_keys_skip (lf p : Str) (okeys tkeys : List Str) (h1 : ¬ p = lf)
    (h2 : is_internal_field p = false) (h3 : substrOf lenMark p = false)
    (h4 : substrOf keysMark p = true)
    (h5 : (∃ k, (k ∈ okeys ∧ ¬ k ∈ tkeys) ∨ (k ∈ tkeys ∧ ¬ k ∈ okeys)))
    (h6 : ∀ k, ((k ∈ okeys ∧ ¬ k ∈ tkeys) ∨ (k ∈ tkeys ∧ ¬ k ∈ okeys)) →
      "_localiser".data.isPrefixOf k = true) :
    entry_verdict lf (p, .keys okeys tkeys) = .skip := by
  simp only [entry_verdict, h1, h2, h3, h4, if_neg, if_false, Bool.false_eq_true, if_true]
  rw [if_pos]
  refine ⟨?_, ?_, ?_⟩
  · rcases h5 with ⟨k, ⟨hin, hout⟩ | ⟨hin, hout⟩⟩
    · exact Or.inl (by
        intro hnil
        have : k ∈ okeys.filter (fun k => ¬ k ∈ tkeys) :=
          List.mem_filter.mpr ⟨hin, by simpa using hout⟩
        rw [hnil] at this
        cases this)
    · exact Or.inr (by
        intro hnil
        have : k ∈ tkeys.filter (fun k => ¬ k ∈ okeys) :=
          List.mem_filter.mpr ⟨hin, by simpa using hout⟩
        rw [hnil] at this
        cases this)
  · refine List.all_eq_true.mpr ?_
    intro k hk
    have hk' := List.mem_filter.mp hk
    exact h6 k (Or.inl ⟨hk'.1, by simpa using hk'.2⟩)
  · refine List.all_eq_true.mpr ?_
    intro k hk
    have hk' := List.mem_filter.mp hk
    exact h6 k (Or.inr ⟨hk'.1, by simpa using hk'.2⟩)

theorem entry_verdict_type_str (lf p : Str) (ov : Val) (b : Str) (h1 : ¬ p = lf)
    (h2 : is_internal_field p = false) (h3 : substrOf lenMark p = false)
    (h4 : substrOf keysMark p = false) (h5 : ¬ ov.tag = (Val.vstr b).tag) :
    entry_verdict lf (p, .vals ov (.vstr b)) = .skip := by
  simp [entry_verdict, h1, h2, h3, h4, h5]

theorem entry_verdict_type_fail (lf p : Str) (ov tv : Val) (h1 : ¬ p = lf)
    (h2 : is_internal_field p = false) (h3 : substrOf lenMark p = false)
    (h4 : substrOf keysMark p = false) (h5 : ¬ ov.tag = tv.tag)
    (h6 : ∀ b, ¬ tv = .vstr b) :
    entry_verdict lf (p, .vals ov tv) = .fail ("Type changed at ".data ++ p) := by
  cases tv <;> simp [entry_verdict, h1, h2, h3, h4, h5]
  exact absurd rfl (h6 _)

theorem entry_verdict_str (lf p : Str) (a b : Str) (h1 : ¬ p = lf)
    (h2 : is_internal_field p = false) (h3 : substrOf lenMark p = false)
    (h4 : substrOf keysMark p = false) (h5 : ¬ a = b) :
    entry_verdict lf (p, .vals (.vstr a) (.vstr b)) = .patch p (mongoPath p) (.vstr b) := by
  simp [entry_verdict, h1, h2, h3, h4, Val.tag, h5]

theorem run_entries_error (lf : Str) : ∀ (es : List Entry) (cp : List Str)
    (so : List (Str × Val)), (∃ e ∈ es, ∃ m, entry_verdict lf e = .fail m) →
    ∃ m', run_entries lf es cp so = .error m' := by
  intro es
  induction es with
  | nil =>
      rintro cp so ⟨e, he, -⟩
      cases he
  | cons e0 es ih =>
      rintro cp so ⟨e, he, m, hm⟩
      rcases List.mem_cons.mp he with rfl | htl
      · exact ⟨m, by simp [run_entries, hm]⟩
      · cases hv : entry_verdict lf e0 with
        | skip =>
            rcases ih cp so ⟨e, htl, m, hm⟩ with ⟨m', hm'⟩
            exact ⟨m', by simp [run_entries, hv, hm']⟩
        | patch p mp v =>
            rcases ih (cp ++ [p]) (dictInsert so mp v) ⟨e, htl, m, hm⟩ with ⟨m', hm'⟩
            exact ⟨m', by simp [run_entries, hv, hm']⟩
        | fail m0 => exact ⟨m0, by simp [run_entries, hv]⟩

theorem entry_verdict_patch_str (lf : Str) (e : Entry) (p mp : Str) (v : Val)
    (h : entry_verdict lf e = .patch p mp v) : ∃ b, v = .vstr b := by
  obtain ⟨q, dv⟩ := e
  unfold entry_verdict at h
  repeat' split at h
  all_goals try cases h
  all_goals exact ⟨_, rfl⟩

theorem dictInsert_mem : ∀ (so : List (Str × Val)) (k : Str) (v : Val),
    ∀ kv ∈ dictInsert so k v, kv = (k, v) ∨ kv ∈ so := by
  intro so
  induction so with
  | nil =>
      intro k v kv hm
      simp [dictInsert] at hm
      exact Or.inl hm
  | cons x so ih =>
      intro k v kv hm
      rw [dictInsert] at hm
      by_cases hx : x.1 = k
      · rw [if_pos hx] at hm
        rcases List.mem_cons.mp hm with rfl | htl
        · exact Or.inl rfl
        · exact Or.inr (List.mem_cons_of_mem _ htl)
      · rw [if_neg hx] at hm
        rcases List.mem_cons.mp hm with rfl | htl
        · exact Or.inr (List.mem_cons_self _ _)
        · rcases ih k v kv htl with h | h
          · exact Or.inl h
          · exact Or.inr (List.mem_cons_of_mem _ h)

theorem run_entries_provenance (lf : Str) : ∀ (es : List Entry) (cp : List Str)
    (so : List (Str × Val)) (r : DiffResult), run_entries lf es cp so = .ok r →
    (∀ p ∈ r.changed_paths,
      p ∈ cp ∨ ∃ e ∈ es, ∃ mp v, entry_verdict lf e = .patch p mp v) ∧
    (∀ kv ∈ r.set_ops,
      kv ∈ so ∨ ∃ e ∈ es, ∃ p v, entry_verdict lf e = .patch p kv.1 v) := by
  intro es
  induction es with
  | nil =>
      intro cp so r hr
      simp [run_entries] at hr
      rw [← hr]
      exact ⟨fun p hp => Or.inl hp, fun kv hkv => Or.inl hkv⟩
  | cons e es ih =>
      intro cp so r hr
      rw [run_entries] at hr
      cases hv : entry_verdict lf e with
      | skip =>
          rw [hv] at hr
          obtain ⟨h1, h2⟩ := ih cp so r hr
          constructor
          · intro p hp
            rcases h1 p hp with h | ⟨e', he', hrest⟩
            · exact Or.inl h
            · exact Or.inr ⟨e', List.mem_cons_of_mem _ he', hrest⟩
          · intro kv hkv
            rcases h2 kv hkv with h | ⟨e', he', hrest⟩
            · exact Or.inl h
            · exact Or.inr ⟨e', List.mem_cons_of_mem _ he', hrest⟩
      | patch p0 mp0 v0 =>
          rw [hv] at hr
          obtain ⟨h1, h2⟩ := ih (cp ++ [p0]) (dictInsert so mp0 v0) r hr
          constructor
          · intro p hp
            rcases h1 p hp with h | ⟨e', he', hrest⟩
            · rcases List.mem_append.mp h with h | h
              · exact Or.inl h
              · simp at h
                subst h
                exact Or.inr ⟨e, List.mem_cons_self _ _, mp0, v0, hv⟩
            · exact Or.inr ⟨e', List.mem_cons_of_mem _ he', hrest⟩
          · intro kv hkv
            rcases h2 kv hkv with h | ⟨e', he', hrest⟩
            · rcases dictInsert_mem so mp0 v0 kv h with h | h
              · subst h
                exact Or.inr ⟨e, List.mem_cons_self _ _, p0, v0, hv⟩
              · exact Or.inl h
            · exact Or.inr ⟨e', List.mem_cons_of_mem _ he', hrest⟩
      | fail m =>
          rw [hv] at hr
          cases hr

theorem dictInsert_forall (P : Val → Prop) : ∀ (so : List (Str × Val)) (k : Str) (v : Val),
    (∀ kv ∈ so, P kv.2) → P v → ∀ kv ∈ dictInsert so k v, P kv.2 := by
  intro so
  induction so with
  | nil =>
      intro k v _ hv kv hm
      simp [dictInsert] at hm
      rw [hm]
      exact hv
  | cons x so ih =>
      intro k v hso hv kv hm
      rw [dictInsert] at hm
      by_cases hx : x.1 = k
      · simp only [hx, if_true] at hm
        rcases List.mem_cons.mp hm with rfl | htl
        · exact hv
        · exact hso kv (List.mem_cons_of_mem _ htl)
      · simp only [hx, if_false] at hm
        rcases List.mem_cons.mp hm with rfl | htl
        · exact hso kv (List.mem_cons_self _ _)
        · exact ih k v (fun kv h => hso kv (List.mem_cons_of_mem _ h)) hv kv htl

theorem foldl_min_some (step : Option MDoc → MDoc → Option MDoc)
    (hstep : step = fun acc d =>
      match acc with
      | none => some d
      | some b => if d.id < b.id then some d else some b) :
    ∀ (l : List MDoc) (b : MDoc),
    ∃ m, l.foldl step (some b) = some m ∧ (m = b ∨ m ∈ l) ∧ m.id ≤ b.id ∧
      ∀ e ∈ l, m.id ≤ e.id := by
  subst hstep
  intro l
  induction l with
  | nil =>
      intro b
      exact ⟨b, rfl, Or.inl rfl, le_refl _, by simp⟩
  | cons d l ih =>
      intro b
      by_cases hd : d.id < b.id
      · rcases ih d with ⟨m, hm, hmem, hle, hall⟩
        refine ⟨m, ?_, ?_, ?_, ?_⟩
        · simp only [List.foldl_cons]
          simpa [hd] using hm
        · rcases hmem with rfl | hmem
          · exact Or.inr (by simp)
          · exact Or.inr (by simp [hmem])
        · omega
        · intro e he
          rcases List.mem_cons.mp he with rfl | he
          · exact hle
          · exact hall e he
      · rcases ih b with ⟨m, hm, hmem, hle, hall⟩
        refine ⟨m, ?_, ?_, ?_, ?_⟩
        · simp only [List.foldl_cons]
          simpa [hd] using hm
        · rcases hmem with rfl | hmem
          · exact Or.inl rfl
          · exact Or.inr (by simp [hmem])
        · exact hle
        · intro e he
          rcases List.mem_cons.mp he with rfl | he
          · omega
          · exact hall e he

theorem findMinBy_none (p : MDoc → Bool) (docs : List MDoc) :
    findMinBy p docs = none ↔ ∀ d ∈ docs, p d = false := by
  unfold findMinBy
  cases hf : docs.filter p with
  | nil =>
      simp only [List.foldl_nil]
      constructor
      · intro _ d hd
        by_contra hc
        have : d ∈ docs.filter p := List.mem_filter.mpr ⟨hd, by
          cases hpd : p d
          · exact absurd hpd hc
          · rfl⟩
        rw [hf] at this
        cases this
      · intro _
        trivial
  | cons x xs =>
      simp only [List.foldl_cons]
      constructor
      · intro hnone
        exfalso
        rcases foldl_min_some _ rfl xs x with ⟨m, hm, -, -, -⟩
        rw [hm] at hnone
        cases hnone
      · intro hall
        exfalso
        have hx : x ∈ docs.filter p := by
          rw [hf]
          simp
        have := List.mem_filter.mp hx
        rw [hall x this.1] at this
        cases this.2

theorem findMinBy_some (p : MDoc → Bool) (docs : List MDoc) (m : MDoc)
    (h : findMinBy p docs = some m) :
    m ∈ docs ∧ p m = true ∧ ∀ e ∈ docs, p e = true → m.id ≤ e.id := by
  unfold findMinBy at h
  cases hf : docs.filter p with
  | nil =>
      rw [hf] at h
      cases h
  | cons x xs =>
      rw [hf] at h
      simp only [List.foldl_cons] at h
      rcases foldl_min_some _ rfl xs x with ⟨m', hm', hmem, hle, hall⟩
      rw [h] at hm'
      injection hm' with hm'
      subst hm'
      have hmx : m ∈ docs.filter p := by
        rw [hf]
        rcases hmem with rfl | hmem
        · simp
        · simp [hmem]
      have hmf := List.mem_filter.mp hmx
      refine ⟨hmf.1, hmf.2, ?_⟩
      intro e he hpe
      have : e ∈ docs.filter p := List.mem_filter.mpr ⟨he, hpe⟩
      rw [hf] at this
      rcases List.mem_cons.mp this with rfl | hxs
      · exact hle
      · exact hall e hxs

theorem updateFirst_none (p : MDoc → Bool) (f : MDoc → MDoc) :
    ∀ docs : List MDoc, (∀ d ∈ docs, p d = false) → updateFirst p f docs = (docs, 0) := by
  intro docs
  induction docs with
  | nil =>
      intro
      rfl
  | cons d docs ih =>
      intro h
      have hd := h d (by simp)
      rw [updateFirst, hd]
      simp only [Bool.false_eq_true, if_false]
      rw [ih (fun x hx => h x (List.mem_cons_of_mem _ hx))]

theorem updateFirst_found (p : MDoc → Bool) (f : MDoc → MDoc) :
    ∀ (pre : List MDoc) (d : MDoc) (post : List MDoc), (∀ x ∈ pre, p x = false) →
    p d = true →
    updateFirst p f (pre ++ d :: post) = (pre ++ f d :: post, if f d = d then 0 else 1) := by
  intro pre
  induction pre with
  | nil =>
      intro d post _ hd
      simp only [List.nil_append]
      rw [updateFirst, hd]
      simp
  | cons x pre ih =>
      intro d post h hd
      have hx := h x (by simp)
      simp only [List.cons_append]
      rw [updateFirst, hx]
      simp only [Bool.false_eq_true, if_false]
      rw [ih d post (fun y hy => h y (List.mem_cons_of_mem _ hy)) hd]

theorem ownerFilter_true (lock owner : Str) (i : Int) (d : MDoc)
    (h : ownerFilter lock owner i d = true) :
    d.id = i ∧ ∃ lk, getF d.fields lock = some (.vobj lk) ∧
      getF lk "owner".data = some (.vstr owner) := by
  unfold ownerFilter at h
  rw [Bool.and_eq_true] at h
  rcases h with ⟨h1, h2⟩
  refine ⟨by simpa using h1, ?_⟩
  cases hg : getF d.fields lock with
  | none =>
      rw [hg] at h2
      cases h2
  | some lk =>
      cases lk <;> rw [hg] at h2 <;> try cases h2
      exact ⟨_, rfl, by simpa using h2⟩

theorem setPathF_getF_ne (fs : List (Str × Val)) (k0 : Str) (rest : List Str) (x : Val)
    (f : Str) (h : ¬ f = k0) : getF (setPathF fs (k0 :: rest) x) f = getF fs f := by
  cases rest with
  | nil => simp only [setPathF]; exact getF_setF_ne fs k0 x f h
  | cons k1 rest =>
      simp only [setPathF]
      cases getF fs k0 with
      | none => exact getF_setF_ne fs k0 _ f h
      | some w => exact getF_setF_ne fs k0 _ f h

theorem applyOps_preserve (f : Str) : ∀ (ops : List (Str × Val)) (fs : List (Str × Val)),
    (∀ op ∈ ops, ∃ k0 rest, splitDots op.1 = k0 :: rest ∧ ¬ f = k0) →
    getF (applyOps fs ops) f = getF fs f := by
  intro ops
  induction ops with
  | nil =>
      intro fs _
      rfl
  | cons op ops ih =>
      intro fs h
      rcases h op (by simp) with ⟨k0, rest, hsp, hne⟩
      have : applyOps fs (op :: ops) = applyOps (setPathF fs (splitDots op.1) op.2) ops := rfl
      rw [this, ih _ (fun o ho => h o (List.mem_cons_of_mem _ ho)), hsp,
        setPathF_getF_ne fs k0 rest op.2 f hne]

theorem applyOps_append (fs : List (Str × Val)) (a b : List (Str × Val)) :
    applyOps fs (a ++ b) = applyOps (applyOps fs a) b := by
  simp [applyOps, List.foldl_append]

theorem applyOps_single_top (fs : List (Str × Val)) (k : Str) (v : Val)
    (h : splitDots k = [k]) : applyOps fs [(k, v)] = setF fs k v := by
  simp [applyOps, h, setPathF]

theorem applyOps_keyed : ∀ (ops : List (Str × Val)) (fs : List (Str × Val)),
    (∀ op ∈ ops, splitDots op.1 = [op.1]) → (ops.map Prod.fst).Nodup →
    ∀ kv ∈ ops, getF (applyOps fs ops) kv.1 = some kv.2 := by
  intro ops
  induction ops with
  | nil =>
      intro fs _ _ kv hm
      cases hm
  | cons op ops ih =>
      intro fs htop hnd kv hm
      rw [List.map_cons, List.nodup_cons] at hnd
      have hstep : applyOps fs (op :: ops) = applyOps (setF fs op.1 op.2) ops := by
        have h1 := htop op (by simp)
        show applyOps (setPathF fs (splitDots op.1) op.2) ops = _
        rw [h1]
        rfl
      rcases List.mem_cons.mp hm with rfl | htl
      · rw [hstep, applyOps_preserve kv.1 ops _ ?_, getF_setF_self]
        intro o ho
        refine ⟨o.1, [], by simpa using htop o (List.mem_cons_of_mem _ ho), ?_⟩
        intro he
        exact hnd.1 (he ▸ List.mem_map_of_mem Prod.fst ho)
      · rw [hstep]
        exact ih _ (fun o ho => htop o (List.mem_cons_of_mem _ ho)) hnd.2 kv htl

theorem bool_false_elim {C : Prop} {b : Bool} (hb : b = false) (h : b = true) : C :=
  absurd (hb ▸ h) (by simp)

theorem getPathV_obj (fs : List (Str × Val)) (k : Str) (r : List Str) :
    getPathV (.vobj fs) (k :: r)
      = match getF fs k with | some w => getPathV w r | none => none := rfl

theorem getPathV_arr (xs : List Val) (k : Str) (r : List Str) :
    getPathV (.varr xs) (k :: r)
      = if h : isNumSeg k ∧ parseNat k < xs.length then
          getPathV (xs.get ⟨parseNat k, h.2⟩) r
        else none := rfl

theorem setPathV_obj_one (fs : List (Str × Val)) (k : Str) (x : Val) :
    setPathV (.vobj fs) [k] x = .vobj (setF fs k x) := rfl

theorem setPathV_arr_one (xs : List Val) (k : Str) (x : Val) :
    setPathV (.varr xs) [k] x
      = if isNumSeg k ∧ parseNat k < xs.length then .varr (xs.set (parseNat k) x)
        else .varr xs := rfl

theorem setPathV_obj_more (fs : List (Str × Val)) (k k' : Str) (r : List Str) (x : Val) :
    setPathV (.vobj fs) (k :: k' :: r) x
      = match getF fs k with
        | some w => .vobj (setF fs k (setPathV w (k' :: r) x))
        | none => .vobj (setF fs k (setPathV (.vobj []) (k' :: r) x)) := rfl

theorem setPathV_arr_more (xs : List Val) (k k' : Str) (r : List Str) (x : Val) :
    setPathV (.varr xs) (k :: k' :: r) x
      = if h : isNumSeg k ∧ parseNat k < xs.length then
          .varr (xs.set (parseNat k) (setPathV (xs.get ⟨parseNat k, h.2⟩) (k' :: r) x))
        else .varr xs := rfl

theorem canSetPathV_arr_one (xs : List Val) (k : Str) :
    canSetPathV (.varr xs) [k] = (isNumSeg k && decide (parseNat k < xs.length)) := rfl

theorem canSetPathV_obj_more (fs : List (Str × Val)) (k k' : Str) (r : List Str) :
    canSetPathV (.vobj fs) (k :: k' :: r)
      = match getF fs k with
        | some w => canSetPathV w (k' :: r)
        | none => true := rfl

theorem canSetPathV_arr_more (xs : List Val) (k k' : Str) (r : List Str) :
    canSetPathV (.varr xs) (k :: k' :: r)
      = if h : isNumSeg k ∧ parseNat k < xs.length then
          canSetPathV (xs.get ⟨parseNat k, h.2⟩) (k' :: r)
        else false := rfl

theorem getPathF_cons (fs : List (Str × Val)) (k : Str) (r : List Str) :
    getPathF fs (k :: r)
      = match getF fs k with | some w => getPathV w r | none => none := rfl

theorem pathsIndep_symm {s1 s2 : List Str} (h : pathsIndep s1 s2) : pathsIndep s2 s1 :=
  ⟨h.2, h.1⟩

theorem pathsIndep_ne_nil {s1 s2 : List Str} (h : pathsIndep s1 s2) :
    ¬ s1 = [] ∧ ¬ s2 = [] := by
  constructor
  · rintro rfl
    exact h.1 ⟨s2, rfl⟩
  · rintro rfl
    exact h.2 ⟨s1, rfl⟩

theorem pathsIndep_head {a : Str} {s1 s2 : List Str} (h : pathsIndep (a :: s1) (a :: s2)) :
    pathsIndep s1 s2 ∧ ¬ s1 = [] ∧ ¬ s2 = [] := by
  have c1 : ¬ s1 <+: s2 := by
    rintro ⟨t, ht⟩
    exact h.1 ⟨t, by rw [List.cons_append, ht]⟩
  have c2 : ¬ s2 <+: s1 := by
    rintro ⟨t, ht⟩
    exact h.2 ⟨t, by rw [List.cons_append, ht]⟩
  refine ⟨⟨c1, c2⟩, ?_, ?_⟩
  · rintro rfl
    exact c1 ⟨s2, rfl⟩
  · rintro rfl
    exact c2 ⟨s1, rfl⟩

theorem pathsIndep_head_ne {k1 k2 : Str} {t1 t2 : List Str}
    (h : pathsIndep (k1 :: t1) (k2 :: t2)) (ht2 : t2 = []) : ¬ k1 = k2 := by
  intro he
  subst ht2
  exact h.2 ⟨t1, by rw [he, List.cons_append, List.nil_append]⟩

theorem list_get_set_self : ∀ (xs : List Val) (i : Nat) (x : Val)
    (h : i < (xs.set i x).length), (xs.set i x).get ⟨i, h⟩ = x := by
  intro xs
  induction xs with
  | nil =>
      intro i x h
      simp at h
  | cons a as ih =>
      intro i x h
      cases i with
      | zero => rfl
      | succ j =>
          show (as.set j x).get ⟨j, _⟩ = x
          exact ih j x _

theorem list_get_set_ne : ∀ (xs : List Val) (i j : Nat) (x : Val), ¬ i = j →
    ∀ (h : j < (xs.set i x).length) (h' : j < xs.length),
    (xs.set i x).get ⟨j, h⟩ = xs.get ⟨j, h'⟩ := by
  intro xs
  induction xs with
  | nil =>
      intro i j x hij h h'
      simp at h'
  | cons a as ih =>
      intro i j x hij
      cases i with
      | zero =>
          cases j with
          | zero => exact absurd rfl (fun he => hij he)
          | succ j' =>
              intro h h'
              rfl
      | succ i' =>
          cases j with
          | zero =>
              intro h h'
              rfl
          | succ j' =>
              intro h h'
              show (as.set i' x).get ⟨j', _⟩ = as.get ⟨j', _⟩
              exact ih i' j' x (fun he => hij (by rw [he])) _ _

theorem canSetPathV_fresh_obj : ∀ (r : List Str), ¬ r = [] →
    canSetPathV (.vobj []) r = true := by
  intro r hr
  cases r with
  | nil => exact absurd rfl hr
  | cons k t =>
      cases t with
      | nil => rfl
      | cons k' t' => rfl

theorem getPathV_setPathV_fresh : ∀ (r1 r2 : List Str) (x : Val), pathsIndep r1 r2 →
    getPathV (setPathV (.vobj []) r2 x) r1 = none := by
  intro r1
  induction r1 with
  | nil =>
      intro r2 x h
      exact absurd rfl (pathsIndep_ne_nil h).1
  | cons k1 t1 ih =>
      intro r2 x h
      cases r2 with
      | nil => exact absurd rfl (pathsIndep_ne_nil h).2
      | cons k2 t2 =>
          by_cases hk : k1 = k2
          · subst hk
            obtain ⟨hNI, ht1, ht2⟩ := pathsIndep_head h
            cases t2 with
            | nil => exact absurd rfl ht2
            | cons k2' t2' =>
                show getPathV (.vobj (setF [] k1 (setPathV (.vobj []) (k2' :: t2') x)))
                  (k1 :: t1) = none
                rw [getPathV_obj, getF_setF_self]
                show getPathV (setPathV (.vobj []) (k2' :: t2') x) t1 = none
                exact ih _ x hNI
          · cases t2 with
            | nil =>
                rw [setPathV_obj_one, getPathV_obj, getF_setF_ne [] k2 x k1 hk]
                rfl
            | cons k2' t2' =>
                show getPathV (.vobj (setF [] k2 (setPathV (.vobj []) (k2' :: t2') x)))
                  (k1 :: t1) = none
                rw [getPathV_obj, getF_setF_ne [] k2 _ k1 hk]
                rfl

theorem getPathV_setPathV_self : ∀ (s : List Str) (v x : Val),
    canSetPathV v s = true → getPathV (setPathV v s x) s = some x := by
  intro s
  induction s with
  | nil =>
      intro v x h
      exact bool_false_elim rfl h
  | cons k t ih =>
      intro v x h
      cases t with
      | nil =>
          cases v with
          | vnull => exact bool_false_elim rfl h
          | vbool b => exact bool_false_elim rfl h
          | vint n => exact bool_false_elim rfl h
          | vtime n => exact bool_false_elim rfl h
          | vstr a => exact bool_false_elim rfl h
          | vobj fs =>
              rw [setPathV_obj_one, getPathV_obj, getF_setF_self]
              rfl
          | varr xs =>
              rw [canSetPathV_arr_one, Bool.and_eq_true] at h
              have hlt : parseNat k < xs.length := of_decide_eq_true h.2
              rw [setPathV_arr_one, if_pos ⟨h.1, hlt⟩, getPathV_arr,
                dif_pos ⟨h.1, by rw [List.length_set]; exact hlt⟩]
              rw [list_get_set_self]
              rfl
      | cons k' t' =>
          cases v with
          | vnull => exact bool_false_elim rfl h
          | vbool b => exact bool_false_elim rfl h
          | vint n => exact bool_false_elim rfl h
          | vtime n => exact bool_false_elim rfl h
          | vstr a => exact bool_false_elim rfl h
          | vobj fs =>
              rw [canSetPathV_obj_more] at h
              cases hg : getF fs k with
              | some w =>
                  rw [hg] at h
                  rw [setPathV_obj_more, hg]
                  show getPathV (.vobj (setF fs k (setPathV w (k' :: t') x)))
                    (k :: k' :: t') = some x
                  rw [getPathV_obj, getF_setF_self]
                  show getPathV (setPathV w (k' :: t') x) (k' :: t') = some x
                  exact ih w x h
              | none =>
                  rw [setPathV_obj_more, hg]
                  show getPathV (.vobj (setF fs k (setPathV (.vobj []) (k' :: t') x)))
                    (k :: k' :: t') = some x
                  rw [getPathV_obj, getF_setF_self]
                  show getPathV (setPathV (.vobj []) (k' :: t') x) (k' :: t') = some x
                  exact ih _ x (canSetPathV_fresh_obj _ (by simp))
          | varr xs =>
              rw [canSetPathV_arr_more] at h
              by_cases hc : isNumSeg k = true ∧ parseNat k < xs.length
              · rw [dif_pos hc] at h
                rw [setPathV_arr_more, dif_pos hc, getPathV_arr,
                  dif_pos ⟨hc.1, by rw [List.length_set]; exact hc.2⟩]
                rw [list_get_set_self]
                exact ih _ x h
              · rw [dif_neg hc] at h
                exact bool_false_elim rfl h

theorem canon_index_ne {k1 k2 : Str} (h1 : isNumSeg k1 = true) (h2 : isNumSeg k2 = true)
    (hc1 : canonNum k1) (hc2 : canonNum k2) (hk : ¬ k1 = k2) :
    ¬ parseNat k1 = parseNat k2 := by
  intro hpe
  exact hk (by rw [hc1 h1, hc2 h2, hpe])

theorem getPathV_setPathV_indep : ∀ (s1 s2 : List Str) (v x : Val),
    (∀ a ∈ s1, canonNum a) → (∀ a ∈ s2, canonNum a) → pathsIndep s1 s2 →
    getPathV (setPathV v s2 x) s1 = getPathV v s1 := by
  intro s1
  induction s1 with
  | nil =>
      intro s2 v x _ _ h
      exact absurd rfl (pathsIndep_ne_nil h).1
  | cons k1 t1 ih =>
      intro s2 v x hc1 hc2 hNI
      cases s2 with
      | nil => exact absurd rfl (pathsIndep_ne_nil hNI).2
      | cons k2 t2 =>
          cases v with
          | vnull => cases t2 <;> rfl
          | vbool b => cases t2 <;> rfl
          | vint n => cases t2 <;> rfl
          | vtime n => cases t2 <;> rfl
          | vstr a => cases t2 <;> rfl
          | vobj fs =>
              by_cases hk : k1 = k2
              · subst hk
                obtain ⟨hNI', ht1, ht2⟩ := pathsIndep_head hNI
                cases t2 with
                | nil => exact absurd rfl ht2
                | cons k2' t2' =>
                    rw [setPathV_obj_more]
                    cases hg : getF fs k1 with
                    | some w =>
                        show getPathV (.vobj (setF fs k1 (setPathV w (k2' :: t2') x)))
                          (k1 :: t1) = getPathV (.vobj fs) (k1 :: t1)
                        rw [getPathV_obj, getF_setF_self]
                        show getPathV (setPathV w (k2' :: t2') x) t1
                          = getPathV (.vobj fs) (k1 :: t1)
                        rw [getPathV_obj, hg]
                        show _ = getPathV w t1
                        exact ih (k2' :: t2') w x
                          (fun a ha => hc1 a (List.mem_cons_of_mem _ ha))
                          (fun a ha => hc2 a (List.mem_cons_of_mem _ ha)) hNI'
                    | none =>
                        show getPathV
                          (.vobj (setF fs k1 (setPathV (.vobj []) (k2' :: t2') x)))
                          (k1 :: t1) = getPathV (.vobj fs) (k1 :: t1)
                        rw [getPathV_obj, getF_setF_self]
                        show getPathV (setPathV (.vobj []) (k2' :: t2') x) t1
                          = getPathV (.vobj fs) (k1 :: t1)
                        rw [getPathV_obj, hg]
                        show _ = (none : Option Val)
                        exact getPathV_setPathV_fresh t1 (k2' :: t2') x hNI'
              · cases t2 with
                | nil =>
                    rw [setPathV_obj_one, getPathV_obj, getPathV_obj,
                      getF_setF_ne fs k2 x k1 hk]
                | cons k2' t2' =>
                    rw [setPathV_obj_more]
                    cases hg : getF fs k2 with
                    | some w =>
                        show getPathV (.vobj (setF fs k2 (setPathV w (k2' :: t2') x)))
                          (k1 :: t1) = getPathV (.vobj fs) (k1 :: t1)
                        rw [getPathV_obj, getPathV_obj, getF_setF_ne fs k2 _ k1 hk]
                    | none =>
                        show getPathV
                          (.vobj (setF fs k2 (setPathV (.vobj []) (k2' :: t2') x)))
                          (k1 :: t1) = getPathV (.vobj fs) (k1 :: t1)
                        rw [getPathV_obj, getPathV_obj, getF_setF_ne fs k2 _ k1 hk]
          | varr xs =>
              by_cases hn2 : isNumSeg k2 = true ∧ parseNat k2 < xs.length
              · cases t2 with
                | nil =>
                    have hk : ¬ k1 = k2 := pathsIndep_head_ne hNI rfl
                    rw [setPathV_arr_one, if_pos hn2, getPathV_arr, getPathV_arr]
                    by_cases hn1 : isNumSeg k1 = true ∧ parseNat k1 < xs.length
                    · rw [dif_pos ⟨hn1.1, by rw [List.length_set]; exact hn1.2⟩,
                        dif_pos hn1]
                      have hij : ¬ parseNat k2 = parseNat k1 := fun he =>
                        canon_index_ne hn1.1 hn2.1 (hc1 k1 (by simp)) (hc2 k2 (by simp))
                          hk he.symm
                      rw [list_get_set_ne xs (parseNat k2) (parseNat k1) x hij _ hn1.2]
                    · rw [dif_neg (by rw [List.length_set]; exact hn1), dif_neg hn1]
                | cons k2' t2' =>
                    rw [setPathV_arr_more, dif_pos hn2, getPathV_arr, getPathV_arr]
                    by_cases hn1 : isNumSeg k1 = true ∧ parseNat k1 < xs.length
                    · rw [dif_pos ⟨hn1.1, by rw [List.length_set]; exact hn1.2⟩,
                        dif_pos hn1]
                      by_cases hk : k1 = k2
                      · subst hk
                        obtain ⟨hNI', ht1, ht2⟩ := pathsIndep_head hNI
                        rw [list_get_set_self]
                        exact ih (k2' :: t2') _ x
                          (fun a ha => hc1 a (List.mem_cons_of_mem _ ha))
                          (fun a ha => hc2 a (List.mem_cons_of_mem _ ha)) hNI'
                      · have hij : ¬ parseNat k2 = parseNat k1 := fun he =>
                          canon_index_ne hn1.1 hn2.1 (hc1 k1 (by simp)) (hc2 k2 (by simp))
                            hk he.symm
                        rw [list_get_set_ne xs (parseNat k2) (parseNat k1)
                          (setPathV (xs.get ⟨parseNat k2, hn2.2⟩) (k2' :: t2') x)
                          hij _ hn1.2]
                    · rw [dif_neg (by rw [List.length_set]; exact hn1), dif_neg hn1]
              · cases t2 with
                | nil => rw [setPathV_arr_one, if_neg hn2]
                | cons k2' t2' => rw [setPathV_arr_more, dif_neg hn2]

theorem canSetPathV_fresh_indep : ∀ (r1 r2 : List Str) (x : Val), pathsIndep r1 r2 →
    canSetPathV (setPathV (.vobj []) r2 x) r1 = true := by
  intro r1
  induction r1 with
  | nil =>
      intro r2 x h
      exact absurd rfl (pathsIndep_ne_nil h).1
  | cons k1 t1 ih =>
      intro r2 x h
      cases r2 with
      | nil => exact absurd rfl (pathsIndep_ne_nil h).2
      | cons k2 t2 =>
          by_cases hk : k1 = k2
          · subst hk
            obtain ⟨hNI, ht1, ht2⟩ := pathsIndep_head h
            cases t2 with
            | nil => exact absurd rfl ht2
            | cons k2' t2' =>
                cases t1 with
                | nil => exact absurd rfl ht1
                | cons k1' t1' =>
                    show canSetPathV
                      (.vobj (setF [] k1 (setPathV (.vobj []) (k2' :: t2') x)))
                      (k1 :: k1' :: t1') = true
                    rw [canSetPathV_obj_more, getF_setF_self]
                    show canSetPathV (setPathV (.vobj []) (k2' :: t2') x)
                      (k1' :: t1') = true
                    exact ih _ x hNI
          · cases t2 with
            | nil =>
                cases t1 with
                | nil => rfl
                | cons k1' t1' =>
                    show canSetPathV (.vobj (setF [] k2 x)) (k1 :: k1' :: t1') = true
                    rw [canSetPathV_obj_more, getF_setF_ne [] k2 x k1 hk]
                    rfl
            | cons k2' t2' =>
                cases t1 with
                | nil => rfl
                | cons k1' t1' =>
                    show canSetPathV
                      (.vobj (setF [] k2 (setPathV (.vobj []) (k2' :: t2') x)))
                      (k1 :: k1' :: t1') = true
                    rw [canSetPathV_obj_more, getF_setF_ne [] k2 _ k1 hk]
                    rfl

theorem canSetPathV_setPathV_indep : ∀ (s1 s2 : List Str) (v x : Val),
    (∀ a ∈ s1, canonNum a) → (∀ a ∈ s2, canonNum a) → pathsIndep s1 s2 →
    canSetPathV (setPathV v s2 x) s1 = canSetPathV v s1 := by
  intro s1
  induction s1 with
  | nil =>
      intro s2 v x _ _ h
      exact absurd rfl (pathsIndep_ne_nil h).1
  | cons k1 t1 ih =>
      intro s2 v x hc1 hc2 hNI
      cases s2 with
      | nil => exact absurd rfl (pathsIndep_ne_nil hNI).2
      | cons k2 t2 =>
          cases v with
          | vnull => cases t2 <;> rfl
          | vbool b => cases t2 <;> rfl
          | vint n => cases t2 <;> rfl
          | vtime n => cases t2 <;> rfl
          | vstr a => cases t2 <;> rfl
          | vobj fs =>
              by_cases hk : k1 = k2
              · subst hk
                obtain ⟨hNI', ht1, ht2⟩ := pathsIndep_head hNI
                cases t2 with
                | nil => exact absurd rfl ht2
                | cons k2' t2' =>
                    cases t1 with
                    | nil => exact absurd rfl ht1
                    | cons k1' t1' =>
                        rw [setPathV_obj_more]
                        cases hg : getF fs k1 with
                        | some w =>
                            show canSetPathV
                              (.vobj (setF fs k1 (setPathV w (k2' :: t2') x)))
                              (k1 :: k1' :: t1')
                              = canSetPathV (.vobj fs) (k1 :: k1' :: t1')
                            rw [canSetPathV_obj_more, getF_setF_self]
                            show canSetPathV (setPathV w (k2' :: t2') x) (k1' :: t1')
                              = canSetPathV (.vobj fs) (k1 :: k1' :: t1')
                            rw [canSetPathV_obj_more, hg]
                            show _ = canSetPathV w (k1' :: t1')
                            exact ih (k2' :: t2') w x
                              (fun a ha => hc1 a (List.mem_cons_of_mem _ ha))
                              (fun a ha => hc2 a (List.mem_cons_of_mem _ ha)) hNI'
                        | none =>
                            show canSetPathV
                              (.vobj (setF fs k1 (setPathV (.vobj []) (k2' :: t2') x)))
                              (k1 :: k1' :: t1')
                              = canSetPathV (.vobj fs) (k1 :: k1' :: t1')
                            rw [canSetPathV_obj_more, getF_setF_self]
                            show canSetPathV (setPathV (.vobj []) (k2' :: t2') x)
                              (k1' :: t1')
                              = canSetPathV (.vobj fs) (k1 :: k1' :: t1')
                            rw [canSetPathV_obj_more, hg]
                            show _ = (true : Bool)
                            exact canSetPathV_fresh_indep (k1' :: t1') (k2' :: t2') x hNI'
              · cases t2 with
                | nil =>
                    cases t1 with
                    | nil => rfl
                    | cons k1' t1' =>
                        rw [setPathV_obj_one, canSetPathV_obj_more, canSetPathV_obj_more,
                          getF_setF_ne fs k2 x k1 hk]
                | cons k2' t2' =>
                    rw [setPathV_obj_more]
                    cases hg : getF fs k2 with
                    | some w =>
                        cases t1 with
                        | nil => rfl
                        | cons k1' t1' =>
                            show canSetPathV
                              (.vobj (setF fs k2 (setPathV w (k2' :: t2') x)))
                              (k1 :: k1' :: t1')
                              = canSetPathV (.vobj fs) (k1 :: k1' :: t1')
                            rw [canSetPathV_obj_more, canSetPathV_obj_more,
                              getF_setF_ne fs k2 _ k1 hk]
                    | none =>
                        cases t1 with
                        | nil => rfl
                        | cons k1' t1' =>
                            show canSetPathV
                              (.vobj (setF fs k2 (setPathV (.vobj []) (k2' :: t2') x)))
                              (k1 :: k1' :: t1')
                              = canSetPathV (.vobj fs) (k1 :: k1' :: t1')
                            rw [canSetPathV_obj_more, canSetPathV_obj_more,
                              getF_setF_ne fs k2 _ k1 hk]
          | varr xs =>
              by_cases hn2 : isNumSeg k2 = true ∧ parseNat k2 < xs.length
              · cases t2 with
                | nil =>
                    rw [setPathV_arr_one, if_pos hn2]
                    cases t1 with
                    | nil =>
                        rw [canSetPathV_arr_one, canSetPathV_arr_one, List.length_set]
                    | cons k1' t1' =>
                        rw [canSetPathV_arr_more, canSetPathV_arr_more]
                        by_cases hn1 : isNumSeg k1 = true ∧ parseNat k1 < xs.length
                        · rw [dif_pos ⟨hn1.1, by rw [List.length_set]; exact hn1.2⟩,
                            dif_pos hn1]
                          have hk : ¬ k1 = k2 := pathsIndep_head_ne hNI rfl
                          have hij : ¬ parseNat k2 = parseNat k1 := fun he =>
                            canon_index_ne hn1.1 hn2.1 (hc1 k1 (by simp))
                              (hc2 k2 (by simp)) hk he.symm
                          rw [list_get_set_ne xs (parseNat k2) (parseNat k1) x hij _ hn1.2]
                        · rw [dif_neg (by rw [List.length_set]; exact hn1), dif_neg hn1]
                | cons k2' t2' =>
                    rw [setPathV_arr_more, dif_pos hn2]
                    cases t1 with
                    | nil =>
                        rw [canSetPathV_arr_one, canSetPathV_arr_one, List.length_set]
                    | cons k1' t1' =>
                        rw [canSetPathV_arr_more, canSetPathV_arr_more]
                        by_cases hn1 : isNumSeg k1 = true ∧ parseNat k1 < xs.length
                        · rw [dif_pos ⟨hn1.1, by rw [List.length_set]; exact hn1.2⟩,
                            dif_pos hn1]
                          by_cases hk : k1 = k2
                          · subst hk
                            obtain ⟨hNI', ht1, ht2⟩ := pathsIndep_head hNI
                            rw [list_get_set_self]
                            exact ih (k2' :: t2') _ x
                              (fun a ha => hc1 a (List.mem_cons_of_mem _ ha))
                              (fun a ha => hc2 a (List.mem_cons_of_mem _ ha)) hNI'
                          · have hij : ¬ parseNat k2 = parseNat k1 := fun he =>
                              canon_index_ne hn1.1 hn2.1 (hc1 k1 (by simp))
                                (hc2 k2 (by simp)) hk he.symm
                            rw [list_get_set_ne xs (parseNat k2) (parseNat k1)
                              (setPathV (xs.get ⟨parseNat k2, hn2.2⟩) (k2' :: t2') x)
                              hij _ hn1.2]
                        · rw [dif_neg (by rw [List.length_set]; exact hn1), dif_neg hn1]
              · cases t2 with
                | nil => rw [setPathV_arr_one, if_neg hn2]
                | cons k2' t2' => rw [setPathV_arr_more, dif_neg hn2]

theorem getPathF_eq (fs : List (Str × Val)) (k : Str) (r : List Str) :
    getPathF fs (k :: r) = getPathV (.vobj fs) (k :: r) := rfl

theorem setPathF_eq (fs : List (Str × Val)) (k : Str) (r : List Str) (x : Val) :
    Val.vobj (setPathF fs (k :: r) x) = setPathV (.vobj fs) (k :: r) x := by
  cases r with
  | nil => rfl
  | cons k' r' =>
      rw [setPathV_obj_more]
      show Val.vobj (match getF fs k with
        | some w => setF fs k (setPathV w (k' :: r') x)
        | none => setF fs k (setPathV (.vobj []) (k' :: r') x)) = _
      cases getF fs k <;> rfl

theorem canSetPathF_eq (fs : List (Str × Val)) (k : Str) (r : List Str) :
    canSetPathF fs (k :: r) = canSetPathV (.vobj fs) (k :: r) := by
  cases r with
  | nil => rfl
  | cons k' r' =>
      show (match getF fs k with
        | some w => canSetPathV w (k' :: r')
        | none => true) = canSetPathV (.vobj fs) (k :: k' :: r')
      rw [canSetPathV_obj_more]

theorem getPathF_setPathF_self (fs : List (Str × Val)) (s : List Str) (x : Val)
    (h : canSetPathF fs s = true) : getPathF (setPathF fs s x) s = some x := by
  cases s with
  | nil => exact bool_false_elim rfl h
  | cons k r =>
      rw [getPathF_eq, setPathF_eq]
      refine getPathV_setPathV_self (k :: r) (.vobj fs) x ?_
      rw [← canSetPathF_eq]
      exact h

theorem getPathF_setPathF_indep (fs : List (Str × Val)) (s1 s2 : List Str) (x : Val)
    (hc1 : ∀ a ∈ s1, canonNum a) (hc2 : ∀ a ∈ s2, canonNum a) (h : pathsIndep s1 s2) :
    getPathF (setPathF fs s2 x) s1 = getPathF fs s1 := by
  obtain ⟨h1, h2⟩ := pathsIndep_ne_nil h
  cases s1 with
  | nil => exact absurd rfl h1
  | cons k1 r1 =>
      cases s2 with
      | nil => exact absurd rfl h2
      | cons k2 r2 =>
          rw [getPathF_eq, getPathF_eq, setPathF_eq]
          exact getPathV_setPathV_indep (k1 :: r1) (k2 :: r2) (.vobj fs) x hc1 hc2 h

theorem canSetPathF_setPathF_indep (fs : List (Str × Val)) (s1 s2 : List Str) (x : Val)
    (hc1 : ∀ a ∈ s1, canonNum a) (hc2 : ∀ a ∈ s2, canonNum a) (h : pathsIndep s1 s2) :
    canSetPathF (setPathF fs s2 x) s1 = canSetPathF fs s1 := by
  obtain ⟨h1, h2⟩ := pathsIndep_ne_nil h
  cases s1 with
  | nil => exact absurd rfl h1
  | cons k1 r1 =>
      cases s2 with
      | nil => exact absurd rfl h2
      | cons k2 r2 =>
          rw [canSetPathF_eq, canSetPathF_eq, setPathF_eq]
          exact canSetPathV_setPathV_indep (k1 :: r1) (k2 :: r2) (.vobj fs) x hc1 hc2 h

theorem splitDots_ne_nil (p : Str) : ¬ splitDots p = [] := by
  unfold splitDots List.splitOn
  exact List.splitOnP_ne_nil _ _

theorem getPathF_setF_indep (fs : List (Str × Val)) (l : Str) (v : Val) (k : Str)
    (r : List Str) (h : ¬ k = l) :
    getPathF (setF fs l v) (k :: r) = getPathF fs (k :: r) := by
  rw [getPathF_cons, getPathF_cons, getF_setF_ne fs l v k h]

theorem getPathF_unsetF_indep (fs : List (Str × Val)) (l k : Str) (r : List Str)
    (h : ¬ k = l) : getPathF (unsetF fs l) (k :: r) = getPathF fs (k :: r) := by
  rw [getPathF_cons, getPathF_cons, getF_unsetF_ne fs l k h]

theorem applyOps_getPathF_indep : ∀ (ops : List (Str × Val)) (fs : List (Str × Val))
    (s : List Str), (∀ a ∈ s, canonNum a) →
    (∀ op ∈ ops, (∀ a ∈ splitDots op.1, canonNum a) ∧ pathsIndep s (splitDots op.1)) →
    getPathF (applyOps fs ops) s = getPathF fs s := by
  intro ops
  induction ops with
  | nil =>
      intro fs s _ _
      rfl
  | cons op ops ih =>
      intro fs s hcs hall
      have hstep : applyOps fs (op :: ops)
          = applyOps (setPathF fs (splitDots op.1) op.2) ops := rfl
      rw [hstep, ih _ s hcs (fun o ho => hall o (List.mem_cons_of_mem _ ho))]
      exact getPathF_setPathF_indep fs s (splitDots op.1) op.2 hcs
        (hall op (List.mem_cons_self _ _)).1 (hall op (List.mem_cons_self _ _)).2

theorem applyOps_getPath_all : ∀ (ops : List (Str × Val)) (fs : List (Str × Val)),
    (∀ op ∈ ops, canSetPathF fs (splitDots op.1) = true) →
    (∀ op ∈ ops, ∀ a ∈ splitDots op.1, canonNum a) →
    List.Pairwise (fun p q => pathsIndep p q) (ops.map (fun op => splitDots op.1)) →
    ∀ kv ∈ ops, getPathF (applyOps fs ops) (splitDots kv.1) = some kv.2 := by
  intro ops
  induction ops with
  | nil =>
      intro fs _ _ _ kv hkv
      cases hkv
  | cons op ops ih =>
      intro fs hcan hcanon hpw kv hkv
      rw [List.map_cons, List.pairwise_cons] at hpw
      have hstep : applyOps fs (op :: ops)
          = applyOps (setPathF fs (splitDots op.1) op.2) ops := rfl
      rcases List.mem_cons.mp hkv with heq | htl
      · rw [hstep, heq]
        rw [applyOps_getPathF_indep ops _ (splitDots op.1)
          (hcanon op (List.mem_cons_self _ _)) (fun o ho =>
            ⟨hcanon o (List.mem_cons_of_mem _ ho), hpw.1 _ (List.mem_map_of_mem _ ho)⟩)]
        exact getPathF_setPathF_self fs _ op.2 (hcan op (List.mem_cons_self _ _))
      · rw [hstep]
        refine ih _ ?_ (fun o ho => hcanon o (List.mem_cons_of_mem _ ho)) hpw.2 kv htl
        intro o ho
        rw [canSetPathF_setPathF_indep fs (splitDots o.1) (splitDots op.1) op.2
          (hcanon o (List.mem_cons_of_mem _ ho)) (hcanon op (List.mem_cons_self _ _))
          (pathsIndep_symm (hpw.1 _ (List.mem_map_of_mem _ ho)))]
        exact hcan o (List.mem_cons_of_mem _ ho)

theorem run_entries_strings (lf : Str) : ∀ (es : List Entry) (cp : List Str)
    (so : List (Str × Val)) (r : DiffResult),
    (∀ kv ∈ so, ∃ b, kv.2 = Val.vstr b) → run_entries lf es cp so = .ok r →
    ∀ kv ∈ r.set_ops, ∃ b, kv.2 = Val.vstr b := by
  intro es
  induction es with
  | nil =>
      intro cp so r hso hr
      simp [run_entries] at hr
      rw [← hr]
      exact hso
  | cons e es ih =>
      intro cp so r hso hr
      rw [run_entries] at hr
      cases hv : entry_verdict lf e with
      | skip =>
          rw [hv] at hr
          exact ih cp so r hso hr
      | patch p mp v =>
          rw [hv] at hr
          rcases entry_verdict_patch_str lf e p mp v hv with ⟨b, rfl⟩
          exact ih (cp ++ [p]) (dictInsert so mp (.vstr b)) r
            (dictInsert_forall (fun v => ∃ b, v = Val.vstr b) so mp (.vstr b) hso ⟨b, rfl⟩) hr
      | fail m =>
          rw [hv] at hr
          cases hr

theorem mem_replaceById (docs : List MDoc) (i : Int) (u : MDoc) (x : MDoc)
    (h : x ∈ replaceById docs i u) : x = u ∨ (x ∈ docs ∧ ¬ x.id = i) := by
  unfold replaceById at h
  rcases List.mem_map.mp h with ⟨y, hy, he⟩
  by_cases hyi : y.id = i
  · rw [if_pos hyi] at he
    exact Or.inl he.symm
  · rw [if_neg hyi] at he
    subst he
    exact Or.inr ⟨hy, hyi⟩

theorem claim_one_eq (docs : List MDoc) (lf src lock : Str) (dur : Int) (ef : Str)
    (now : Int) (owner : Str) :
    (findMinBy (claimFilter lf src lock ef now) docs = none ∧
      claim_one docs lf src lock dur ef now owner = (none, docs)) ∨
    (∃ m, findMinBy (claimFilter lf src lock ef now) docs = some m ∧
      claim_one docs lf src lock dur ef now owner
        = (some (owner, ⟨m.id, setF m.fields lock (leaseVal owner now (now + dur))⟩),
           replaceById docs m.id
             ⟨m.id, setF m.fields lock (leaseVal owner now (now + dur))⟩)) := by
  cases hfm : findMinBy (claimFilter lf src lock ef now) docs with
  | none =>
      left
      refine ⟨rfl, ?_⟩
      unfold claim_one
      rw [hfm]
  | some m =>
      right
      refine ⟨m, rfl, ?_⟩
      unfold claim_one
      rw [hfm]

theorem getF_leaseVal_expires (o : Str) (a b : Int) :
    getF [("owner".data, Val.vstr o), ("lockedAt".data, Val.vtime a),
      ("expiresAt".data, Val.vtime b)] "expiresAt".data = some (Val.vtime b) := by
  have h1 : ¬ ("owner".data : Str) = "expiresAt".data := by decide
  have h2 : ¬ ("lockedAt".data : Str) = "expiresAt".data := by decide
  simp [getF_cons, h1, h2]

theorem lockAvailable_of_getF (lock : Str) (now2 : Int) (fs : List (Str × Val))
    (lk : List (Str × Val)) (h : getF fs lock = some (.vobj lk)) (t : Int)
    (he : getF lk "expiresAt".data = some (.vtime t)) :
    lockAvailable lock now2 fs = decide (t < now2) := by
  simp [lockAvailable, h, he]

/-!
### Claim theorems for the store operations
-/

/-- C3: the claim requires `claim_one` to select only documents satisfying
the eligibility predicate — locale equal to the source locale, no lease or an
expired lease, no error record — but the issued filter lost the
lease-availability conjunct: the dict literal at db.py:59 merges
`lock_available_filter` and `not_errored_filter`, which both consist of a
single `$or` key, so the second unpacking overwrites the first.  Part 1: the
filter the code issues accepts any locale-matching, not-errored document
regardless of its lease.  Part 2, the failing input: a store whose only
document holds an unexpired lease (expiresAt 100, now 50) is ineligible under
the spec predicate, yet `claim_one` claims it and overwrites the lease. -/
theorem C3_claim_filter_drops_lease :
    (∀ (lf src lock ef : Str) (now : Int) (d : MDoc),
      getF d.fields lf = some (.vstr src) → notErrored ef d.fields = true →
      claimFilter lf src lock ef now d = true) ∧
    (∃ d : MDoc,
      eligibleSpec "locale".data "en".data "_localiserLock".data
        "_localiserLastError".data 50 d = false ∧
      (claim_one [d] "locale".data "en".data "_localiserLock".data 60
          "_localiserLastError".data 50 "thief".data).1
        = some ("thief".data, ⟨1, [("locale".data, .vstr "en".data),
            ("_localiserLock".data, leaseVal "thief".data 50 110)]⟩)) := by
  constructor
  · intro lf src lock ef now d h1 h2
    simp [claimFilter, h1, h2]
  · exact ⟨⟨1, [("locale".data, .vstr "en".data),
      ("_localiserLock".data, leaseVal "w".data 0 100)]⟩, by decide, by decide⟩

/-- Witness for C3: the general part applied to a concrete document holding a
fresh, unexpired lease — the issued filter still accepts it. -/
theorem C3_witness :
    claimFilter "locale".data "en".data "_localiserLock".data
      "_localiserLastError".data 50
      ⟨1, [("locale".data, .vstr "en".data),
        ("_localiserLock".data, leaseVal "w".data 0 100)]⟩ = true :=
  C3_claim_filter_drops_lease.1 "locale".data "en".data "_localiserLock".data
    "_localiserLastError".data 50
    ⟨1, [("locale".data, .vstr "en".data),
      ("_localiserLock".data, leaseVal "w".data 0 100)]⟩
    (by decide) (by decide)

/-- C4: the claim says at most one worker can hold an active lease on a
document and a racing second `claim_one` must not receive it before the first
lease expires.  On the program this is false: because the issued filter lost
the lease-availability conjunct (db.py:59), a second `claim_one` made at
now = 110 — before the first lease's expiresAt = 160 — matches the same
document again and overwrites the lease, so BOTH racing attempts receive the
document. -/
theorem C4_second_claim_steals :
    (claim_one [⟨1, [("locale".data, .vstr "en".data)]⟩] "locale".data "en".data
        "_localiserLock".data 60 "_localiserLastError".data 100 "w1".data).1
      = some ("w1".data, ⟨1, [("locale".data, .vstr "en".data),
          ("_localiserLock".data, leaseVal "w1".data 100 160)]⟩) ∧
    (claim_one
        (claim_one [⟨1, [("locale".data, .vstr "en".data)]⟩] "locale".data "en".data
          "_localiserLock".data 60 "_localiserLastError".data 100 "w1".data).2
        "locale".data "en".data "_localiserLock".data 60 "_localiserLastError".data
        110 "w2".data).1
      = some ("w2".data, ⟨1, [("locale".data, .vstr "en".data),
          ("_localiserLock".data, leaseVal "w2".data 110 170)]⟩) := by
  decide

/-- C9: the fail operation `unlock_with_error`, conditioned on the document
carrying a lease owned by the given owner token, sets the error record (a map
with the message and a timestamp) and clears the lease, and leaves every
other field — the locale field in particular — unchanged; with no
owner-matching document the store is untouched. -/
theorem C9_unlock_with_error_frame
    (pre post : List MDoc) (d : MDoc) (i : Int) (lock owner ef msg : Str) (now : Int)
    (hpre : ∀ x ∈ pre, ownerFilter lock owner i x = false)
    (hd : ownerFilter lock owner i d = true)
    (hef : ¬ ef = lock) :
    (∃ u : MDoc,
      (unlock_with_error (pre ++ d :: post) i lock owner ef msg now).1 = pre ++ u :: post ∧
      u.id = d.id ∧
      getF u.fields ef =
        some (.vobj [("message".data, .vstr msg), ("at".data, .vtime now)]) ∧
      getF u.fields lock = none ∧
      ∀ f : Str, ¬ f = ef → ¬ f = lock → getF u.fields f = getF d.fields f) ∧
    ∀ docs : List MDoc, (∀ x ∈ docs, ownerFilter lock owner i x = false) →
      unlock_with_error docs i lock owner ef msg now = (docs, 0) := by
  constructor
  · refine ⟨⟨d.id,
      unsetF
        (setF d.fields ef (.vobj [("message".data, .vstr msg), ("at".data, .vtime now)]))
        lock⟩, ?_, rfl, ?_, ?_, ?_⟩
    · unfold unlock_with_error
      rw [updateFirst_found _ _ pre d post hpre hd]
    · rw [getF_unsetF_ne _ _ _ hef]
      exact getF_setF_self _ _ _
    · exact getF_unsetF_self _ _
    · intro f hf1 hf2
      rw [getF_unsetF_ne _ _ _ hf2, getF_setF_ne _ _ _ _ hf1]
  · intro docs hall
    unfold unlock_with_error
    rw [updateFirst_none _ _ docs hall]

/-- Witness for C9 at a concrete store. -/
theorem C9_witness :
    (∃ u : MDoc,
      (unlock_with_error
        [⟨1, [("locale".data, .vstr "en".data),
              ("_localiserLock".data, leaseVal "w".data 0 5)]⟩]
        1 "_localiserLock".data "w".data "_localiserLastError".data "boom".data 7).1
        = [] ++ u :: [] ∧
      u.id = (⟨1, [("locale".data, .vstr "en".data),
              ("_localiserLock".data, leaseVal "w".data 0 5)]⟩ : MDoc).id ∧
      getF u.fields "_localiserLastError".data =
        some (.vobj [("message".data, .vstr "boom".data), ("at".data, .vtime 7)]) ∧
      getF u.fields "_localiserLock".data = none ∧
      ∀ f : Str, ¬ f = "_localiserLastError".data → ¬ f = "_localiserLock".data →
        getF u.fields f =
          getF (⟨1, [("locale".data, .vstr "en".data),
              ("_localiserLock".data, leaseVal "w".data 0 5)]⟩ : MDoc).fields f) ∧
    ∀ docs : List MDoc,
      (∀ x ∈ docs, ownerFilter "_localiserLock".data "w".data 1 x = false) →
      unlock_with_error docs 1 "_localiserLock".data "w".data "_localiserLastError".data
        "boom".data 7 = (docs, 0) :=
  C9_unlock_with_error_frame [] []
    ⟨1, [("locale".data, .vstr "en".data), ("_localiserLock".data, leaseVal "w".data 0 5)]⟩
    1 "_localiserLock".data "w".data "_localiserLastError".data "boom".data 7
    (by simp) (by decide) (by decide)

/-- C5, amended: the commit operation, conditioned on the document still
carrying a lease owned by the given owner token (lease expiry alone is not
checked), atomically applies every patch entry along its dotted store path,
sets the locale field to the target locale and the processed timestamp,
clears the lease, leaves every field not touched by a patch path unchanged,
and returns modified-count 1; it returns 0 with the store untouched exactly
when no document matches the `_id` plus lease-owner condition.  The patch
hypotheses say the patch is shaped like validator output: no path starts at
the locale, processed or lock field, every path navigates the stored
document (`canSetPathF`), numeric segments are canonical decimals, and the
paths are pairwise prefix-independent, as leaf-derived paths always are. -/
theorem C5_apply_patch_and_finish
    (pre post : List MDoc) (d : MDoc) (i : Int) (lock owner lf target pm : Str)
    (set_ops : List (Str × Val)) (now : Int)
    (hpre : ∀ x ∈ pre, ownerFilter lock owner i x = false)
    (hd : ownerFilter lock owner i d = true)
    (hlf1 : splitDots lf = [lf]) (hpm1 : splitDots pm = [pm])
    (hlfpm : ¬ lf = pm) (hlklf : ¬ lock = lf) (hlkpm : ¬ lock = pm)
    (hlfso : ¬ lf ∈ set_ops.map Prod.fst) (hpmso : ¬ pm ∈ set_ops.map Prod.fst)
    (hheads : ∀ op ∈ set_ops, ∀ (k0 : Str) (r0 : List Str), splitDots op.1 = k0 :: r0 →
      ¬ k0 = lf ∧ ¬ k0 = pm ∧ ¬ k0 = lock)
    (hcan : ∀ op ∈ set_ops, canSetPathF d.fields (splitDots op.1) = true)
    (hcanon : ∀ op ∈ set_ops, ∀ a ∈ splitDots op.1, canonNum a)
    (hpw : List.Pairwise (fun p q => pathsIndep p q)
      (set_ops.map (fun op => splitDots op.1))) :
    ((apply_patch_and_finish (pre ++ d :: post) i lock owner lf target pm set_ops true now).2
      = 1 ∧
    ∃ u : MDoc,
      (apply_patch_and_finish (pre ++ d :: post) i lock owner lf target pm set_ops true now).1
        = pre ++ u :: post ∧
      u.id = d.id ∧
      getF u.fields lf = some (.vstr target) ∧
      getF u.fields pm = some (.vtime now) ∧
      getF u.fields lock = none ∧
      (∀ kv ∈ set_ops, getPathF u.fields (splitDots kv.1) = some kv.2) ∧
      ∀ f : Str, ¬ f = lf → ¬ f = pm → ¬ f = lock →
        (∀ op ∈ set_ops, ∀ r0 : List Str, ¬ splitDots op.1 = f :: r0) →
        getF u.fields f = getF d.fields f) ∧
    ∀ docs : List MDoc, (∀ x ∈ docs, ownerFilter lock owner i x = false) →
      apply_patch_and_finish docs i lock owner lf target pm set_ops true now = (docs, 0) := by
  have hpmlf : ¬ pm = lf := fun h => hlfpm h.symm
  have hlflk : ¬ lf = lock := fun h => hlklf h.symm
  have hpmlk : ¬ pm = lock := fun h => hlkpm h.symm
  have hmerged :
      dictInsert (dictInsert set_ops lf (.vstr target)) pm (.vtime now)
        = set_ops ++ [(lf, .vstr target), (pm, .vtime now)] := by
    rw [dictInsert_absent set_ops lf _ hlfso, dictInsert_absent _ pm _ ?_]
    · simp
    · rw [List.map_append, List.mem_append]
      rintro (h | h)
      · exact hpmso h
      · simp at h
        exact hpmlf h
  have hufields :
      unsetF
        (applyOps d.fields
          (dictInsert (dictInsert set_ops lf (.vstr target)) pm (.vtime now))) lock
        = unsetF
            (setF (setF (applyOps d.fields set_ops) lf (.vstr target)) pm (.vtime now))
            lock := by
    rw [hmerged]
    have h2 : ([(lf, Val.vstr target), (pm, Val.vtime now)] : List (Str × Val))
        = [(lf, Val.vstr target)] ++ [(pm, Val.vtime now)] := by simp
    rw [applyOps_append, h2, applyOps_append, applyOps_single_top _ lf _ hlf1,
      applyOps_single_top _ pm _ hpm1]
  obtain ⟨hdid, lk, hlk, hlkown⟩ := ownerFilter_true lock owner i d hd
  have hneq : ¬ (⟨d.id,
      unsetF
        (applyOps d.fields
          (dictInsert (dictInsert set_ops lf (.vstr target)) pm (.vtime now))) lock⟩ : MDoc)
      = d := by
    intro he
    have hfe := congrArg MDoc.fields he
    simp only at hfe
    have hnone := getF_unsetF_self
      (applyOps d.fields (dictInsert (dictInsert set_ops lf (.vstr target)) pm (.vtime now)))
      lock
    rw [hfe, hlk] at hnone
    cases hnone
  have hrun := updateFirst_found (ownerFilter lock owner i)
    (fun x => ⟨x.id,
      unsetF
        (applyOps x.fields
          (dictInsert (dictInsert set_ops lf (.vstr target)) pm (.vtime now))) lock⟩)
    pre d post hpre hd
  refine ⟨⟨?_, ?_⟩, ?_⟩
  · show (updateFirst (ownerFilter lock owner i)
      (fun x => ⟨x.id,
        unsetF
          (applyOps x.fields
            (dictInsert (dictInsert set_ops lf (.vstr target)) pm (.vtime now))) lock⟩)
      (pre ++ d :: post)).2 = 1
    rw [hrun]
    simp only [if_neg hneq]
  · refine ⟨⟨d.id,
      unsetF
        (applyOps d.fields
          (dictInsert (dictInsert set_ops lf (.vstr target)) pm (.vtime now))) lock⟩,
      ?_, rfl, ?_, ?_, ?_, ?_, ?_⟩
    · show (updateFirst (ownerFilter lock owner i)
        (fun x => ⟨x.id,
          unsetF
            (applyOps x.fields
              (dictInsert (dictInsert set_ops lf (.vstr target)) pm (.vtime now))) lock⟩)
        (pre ++ d :: post)).1 = _
      rw [hrun]
    · show getF _ lf = some (.vstr target)
      simp only [hufields]
      rw [getF_unsetF_ne _ _ _ hlflk, getF_setF_ne _ _ _ _ hlfpm, getF_setF_self]
    · show getF _ pm = some (.vtime now)
      simp only [hufields]
      rw [getF_unsetF_ne _ _ _ hpmlk, getF_setF_self]
    · exact getF_unsetF_self _ _
    · intro kv hkv
      obtain ⟨k0, r0, hsp⟩ : ∃ k0 r0, splitDots kv.1 = k0 :: r0 := by
        cases hsd : splitDots kv.1 with
        | nil => exact absurd hsd (splitDots_ne_nil _)
        | cons a b => exact ⟨a, b, rfl⟩
      obtain ⟨hk0lf, hk0pm, hk0lk⟩ := hheads kv hkv k0 r0 hsp
      show getPathF _ (splitDots kv.1) = some kv.2
      simp only [hufields]
      rw [hsp, getPathF_unsetF_indep _ _ _ _ hk0lk, getPathF_setF_indep _ _ _ _ _ hk0pm,
        getPathF_setF_indep _ _ _ _ _ hk0lf, ← hsp]
      exact applyOps_getPath_all set_ops d.fields hcan hcanon hpw kv hkv
    · intro f hf1 hf2 hf3 hf4
      show getF _ f = getF d.fields f
      simp only [hufields]
      rw [getF_unsetF_ne _ _ _ hf3, getF_setF_ne _ _ _ _ hf2, getF_setF_ne _ _ _ _ hf1]
      refine applyOps_preserve f set_ops d.fields ?_
      intro op hop
      cases hsd : splitDots op.1 with
      | nil => exact absurd hsd (splitDots_ne_nil _)
      | cons k0 r0 =>
          refine ⟨k0, r0, rfl, ?_⟩
          intro he
          exact hf4 op hop r0 (by rw [hsd, he])
  · intro docs hall
    show updateFirst (ownerFilter lock owner i)
      (fun x => ⟨x.id,
        unsetF
          (applyOps x.fields
            (dictInsert (dictInsert set_ops lf (.vstr target)) pm (.vtime now))) lock⟩)
      docs = (docs, 0)
    rw [updateFirst_none _ _ docs hall]

/-- Witness for C5 at a concrete store: a commit conditioned on a held lease
applies a patch with a top-level path and a dotted array path, advances the
locale, stamps the processed marker, clears the lease and reports
modified-count 1. -/
theorem C5_witness :
    ((apply_patch_and_finish
      [⟨1, [("locale".data, .vstr "en".data), ("title".data, .vstr "Hello".data),
        ("tags".data, .varr [.vstr "a".data, .vstr "b".data]),
        ("_localiserLock".data, leaseVal "w".data 0 5)]⟩]
      1 "_localiserLock".data "w".data "locale".data "de".data
      "_localiserProcessedAt".data
      [("title".data, .vstr "Hallo".data), ("tags.0".data, .vstr "x".data)]
      true 10).2 = 1 ∧
    ∃ u : MDoc,
      (apply_patch_and_finish
        [⟨1, [("locale".data, .vstr "en".data), ("title".data, .vstr "Hello".data),
          ("tags".data, .varr [.vstr "a".data, .vstr "b".data]),
          ("_localiserLock".data, leaseVal "w".data 0 5)]⟩]
        1 "_localiserLock".data "w".data "locale".data "de".data
        "_localiserProcessedAt".data
        [("title".data, .vstr "Hallo".data), ("tags.0".data, .vstr "x".data)]
        true 10).1
        = [] ++ u :: [] ∧
      u.id = (⟨1, [("locale".data, .vstr "en".data), ("title".data, .vstr "Hello".data),
          ("tags".data, .varr [.vstr "a".data, .vstr "b".data]),
          ("_localiserLock".data, leaseVal "w".data 0 5)]⟩ : MDoc).id ∧
      getF u.fields "locale".data = some (.vstr "de".data) ∧
      getF u.fields "_localiserProcessedAt".data = some (.vtime 10) ∧
      getF u.fields "_localiserLock".data = none ∧
      (∀ kv ∈ [(("title".data : Str), Val.vstr "Hallo".data),
          (("tags.0".data : Str), Val.vstr "x".data)],
        getPathF u.fields (splitDots kv.1) = some kv.2) ∧
      ∀ f : Str, ¬ f = "locale".data → ¬ f = "_localiserProcessedAt".data →
        ¬ f = "_localiserLock".data →
        (∀ op ∈ [(("title".data : Str), Val.vstr "Hallo".data),
            (("tags.0".data : Str), Val.vstr "x".data)],
          ∀ r0 : List Str, ¬ splitDots op.1 = f :: r0) →
        getF u.fields f =
          getF (⟨1, [("locale".data, .vstr "en".data), ("title".data, .vstr "Hello".data),
            ("tags".data, .varr [.vstr "a".data, .vstr "b".data]),
            ("_localiserLock".data, leaseVal "w".data 0 5)]⟩ : MDoc).fields f) ∧
    ∀ docs : List MDoc,
      (∀ x ∈ docs, ownerFilter "_localiserLock".data "w".data 1 x = false) →
      apply_patch_and_finish docs 1 "_localiserLock".data "w".data "locale".data
        "de".data "_localiserProcessedAt".data
        [("title".data, .vstr "Hallo".data), ("tags.0".data, .vstr "x".data)]
        true 10 = (docs, 0) :=
  C5_apply_patch_and_finish [] []
    ⟨1, [("locale".data, .vstr "en".data), ("title".data, .vstr "Hello".data),
      ("tags".data, .varr [.vstr "a".data, .vstr "b".data]),
      ("_localiserLock".data, leaseVal "w".data 0 5)]⟩
    1 "_localiserLock".data "w".data "locale".data "de".data "_localiserProcessedAt".data
    [("title".data, .vstr "Hallo".data), ("tags.0".data, .vstr "x".data)] 10
    (by simp) (by decide) (by decide) (by decide) (by decide) (by decide) (by decide)
    (by decide) (by decide)
    (by
      intro op hop k0 r0 hsp
      rcases List.mem_cons.mp hop with heq | hop2
      · have h0 : splitDots op.1 = ["title".data] := by rw [heq]; decide
        rw [h0] at hsp
        injection hsp with h1 h2
        subst h1
        exact ⟨by decide, by decide, by decide⟩
      · rcases List.mem_cons.mp hop2 with heq | hop3
        · have h0 : splitDots op.1 = ["tags".data, "0".data] := by rw [heq]; decide
          rw [h0] at hsp
          injection hsp with h1 h2
          subst h1
          exact ⟨by decide, by decide, by decide⟩
        · cases hop3)
    (by decide)
    (by
      intro op hop a ha
      intro hnum
      rcases List.mem_cons.mp hop with heq | hop2
      · rw [show splitDots op.1 = ["title".data] from by rw [heq]; decide] at ha
        rcases List.mem_cons.mp ha with rfl | ha2
        · exact absurd hnum (by decide)
        · cases ha2
      · rcases List.mem_cons.mp hop2 with heq | hop3
        · rw [show splitDots op.1 = ["tags".data, "0".data] from by rw [heq]; decide] at ha
          rcases List.mem_cons.mp ha with rfl | ha2
          · exact absurd hnum (by decide)
          · rcases List.mem_cons.mp ha2 with rfl | ha3
            · rw [show parseNat "0".data = 0 from by decide, natDigits]
              decide
            · cases ha3
        · cases hop3)
    (by decide)

/-- C5, counterexample: a claimed document whose lease expired (expiresAt 5,
commit at now 10) but was never re-claimed still carries the owner's lease,
so commit succeeds with modified-count 1 — not 0 as the claim's
"in particular" sentence demands. -/
theorem C5_counterexample :
    ¬ (apply_patch_and_finish
      [⟨1, [("locale".data, .vstr "en".data),
        ("_localiserLock".data, leaseVal "w".data 0 5)]⟩]
      1 "_localiserLock".data "w".data "locale".data "de".data
      "_localiserProcessedAt".data [("title".data, .vstr "Hallo".data)] true 10).2 = 0 ∧
    (apply_patch_and_finish
      [⟨1, [("locale".data, .vstr "en".data),
        ("_localiserLock".data, leaseVal "w".data 0 5)]⟩]
      1 "_localiserLock".data "w".data "locale".data "de".data
      "_localiserProcessedAt".data [("title".data, .vstr "Hallo".data)] true 10).2 = 1 := by
  decide

/-!
### Claim theorems for the diff/validate engine
-/

/-- C1: evaluating the code at the claim's own concrete scenario
D = `{"count": 3}`, C = `{"count": 4}` — a number leaf changed to a different
value of the same runtime type — `validate_and_build_patch` returns
successfully with an empty patch instead of raising `ValidationError`,
contradicting the claim, the spec's scenario 3, and the function's own
docstring rule "Non-string primitives (numbers, bools) must not change". -/
theorem C1_count_change_tolerated :
    validate_and_build_patch (.vobj [("count".data, .vint 3)])
      (.vobj [("count".data, .vint 4)]) "locale".data = .ok ⟨[], []⟩ := by
  decide

/-- C6, amended: whenever the diff of D and C contains a `\x7blen\x7d` entry
whose path is neither the locale field nor internal,
`validate_and_build_patch` fails with a `ValidationError`; in particular
D = `{"tags": ["a","b"]}`, C = `{"tags": ["a"]}` fails with the structural
error message at `tags\x7blen\x7d`. -/
theorem C6_len_entry_fails (D C : Val) (lf : Str) :
    (∀ p dv, (p, dv) ∈ walk_diff D C [] → substrOf lenMark p = true → ¬ p = lf →
      is_internal_field p = false →
      ∃ m, validate_and_build_patch D C lf = .error m) ∧
    validate_and_build_patch
      (.vobj [("tags".data, .varr [.vstr "a".data, .vstr "b".data])])
      (.vobj [("tags".data, .varr [.vstr "a".data])]) "locale".data
      = .error ("Structure changed at tags\x7blen\x7d".data) := by
  constructor
  · intro p dv hmem hlen hlf hint
    cases C with
    | vobj gs =>
        have hv := entry_verdict_len lf p dv hlf hint hlen
        exact run_entries_error lf (walk_diff D (.vobj gs) []) [] []
          ⟨(p, dv), hmem, ("Structure changed at ".data ++ p), hv⟩
    | vnull => exact ⟨_, rfl⟩
    | vbool b => exact ⟨_, rfl⟩
    | vint n => exact ⟨_, rfl⟩
    | vstr a => exact ⟨_, rfl⟩
    | vtime t => exact ⟨_, rfl⟩
    | varr xs => exact ⟨_, rfl⟩
  · decide

/-- Witness for C6: the general part applied to the concrete `tags` scenario,
whose diff contains the `\x7blen\x7d` entry. -/
theorem C6_witness :
    ∃ m, validate_and_build_patch
      (.vobj [("tags".data, .varr [.vstr "a".data, .vstr "b".data])])
      (.vobj [("tags".data, .varr [.vstr "a".data])]) "locale".data = .error m :=
  (C6_len_entry_fails
    (.vobj [("tags".data, .varr [.vstr "a".data, .vstr "b".data])])
    (.vobj [("tags".data, .varr [.vstr "a".data])]) "locale".data).1
    "tags\x7blen\x7d".data (.lens 2 1) (by decide) (by decide) (by decide) (by decide)

/-- C6, counterexample: a sequence-length change nested inside the internal
namespace — D = `{"_localiserX": ["a","b"]}`, C = `{"_localiserX": ["a"]}` —
validates successfully, while the claim demands failure for a length change
at any nesting level. -/
theorem C6_counterexample :
    validate_and_build_patch
      (.vobj [("_localiserX".data, .varr [.vstr "a".data, .vstr "b".data])])
      (.vobj [("_localiserX".data, .varr [.vstr "a".data])]) "locale".data
      = .ok ⟨[], []⟩ := by
  decide

/-- C7, amended: a `\x7bkeys\x7d` diff entry whose path is neither the locale
field nor internal and carries no `\x7blen\x7d` marker makes
`validate_and_build_patch` fail unless every key present in exactly one of
the two key sets starts with `_localiser`, in which case the entry is
skipped; in particular dropping the non-internal key `a` at the top level
fails with a structural error. -/
theorem C7_keys_policy (D C : Val) (lf : Str) :
    (∀ q okeys tkeys, (q ++ keysMark, .keys okeys tkeys) ∈ walk_diff D C [] →
      ¬ q ++ keysMark = lf → is_internal_field (q ++ keysMark) = false →
      substrOf lenMark (q ++ keysMark) = false →
      (∃ k, ((k ∈ okeys ∧ ¬ k ∈ tkeys) ∨ (k ∈ tkeys ∧ ¬ k ∈ okeys)) ∧
        "_localiser".data.isPrefixOf k = false) →
      ∃ m, validate_and_build_patch D C lf = .error m) ∧
    (∀ q okeys tkeys, ¬ q ++ keysMark = lf →
      is_internal_field (q ++ keysMark) = false →
      substrOf lenMark (q ++ keysMark) = false →
      (∃ k, (k ∈ okeys ∧ ¬ k ∈ tkeys) ∨ (k ∈ tkeys ∧ ¬ k ∈ okeys)) →
      (∀ k, ((k ∈ okeys ∧ ¬ k ∈ tkeys) ∨ (k ∈ tkeys ∧ ¬ k ∈ okeys)) →
        "_localiser".data.isPrefixOf k = true) →
      entry_verdict lf (q ++ keysMark, .keys okeys tkeys) = .skip) ∧
    validate_and_build_patch (.vobj [("a".data, .vint 1)]) (.vobj []) "locale".data
      = .error ("Structure changed at \x7bkeys\x7d".data) := by
  refine ⟨?_, ?_, ?_⟩
  · intro q okeys tkeys hmem hlf hint hlen h5
    cases C with
    | vobj gs =>
        have hv := entry_verdict_keys_fail lf (q ++ keysMark) okeys tkeys hlf hint hlen
          (substrOf_suffix keysMark q) h5
        exact run_entries_error lf (walk_diff D (.vobj gs) []) [] []
          ⟨(q ++ keysMark, .keys okeys tkeys), hmem,
            ("Structure changed at ".data ++ (q ++ keysMark)), hv⟩
    | vnull => exact ⟨_, rfl⟩
    | vbool b => exact ⟨_, rfl⟩
    | vint n => exact ⟨_, rfl⟩
    | vstr a => exact ⟨_, rfl⟩
    | vtime t => exact ⟨_, rfl⟩
    | varr xs => exact ⟨_, rfl⟩
  · intro q okeys tkeys hlf hint hlen h5 h6
    exact entry_verdict_keys_skip lf (q ++ keysMark) okeys tkeys hlf hint hlen
      (substrOf_suffix keysMark q) h5 h6
  · decide

/-- Witness for C7: the failing part applied to dropping the key `a`, whose
diff is the root `\x7bkeys\x7d` entry, and the tolerance part applied to a
purely internal key drop. -/
theorem C7_witness :
    ∃ m, validate_and_build_patch (.vobj [("a".data, .vint 1)]) (.vobj [])
      "locale".data = .error m :=
  (C7_keys_policy (.vobj [("a".data, .vint 1)]) (.vobj []) "locale".data).1
    [] ["a".data] [] (by decide) (by decide) (by decide) (by decide)
    ⟨"a".data, Or.inl (by decide), by decide⟩

/-- C7, counterexample: dropping the non-internal key `a` one level below an
internal-prefixed field — D = `{"_localiserMeta": {"a": 1}}`,
C = `{"_localiserMeta": {}}` — validates successfully, while the claim
demands failure for a non-internal key dropped at any map level. -/
theorem C7_counterexample :
    validate_and_build_patch
      (.vobj [("_localiserMeta".data, .vobj [("a".data, .vint 1)])])
      (.vobj [("_localiserMeta".data, .vobj [])]) "locale".data
      = .ok ⟨[], []⟩ := by
  decide

theorem walk_singleton (k : Str) (o t : Val) (htag : ¬ o.tag = t.tag) :
    walk_diff (.vobj [(k, o)]) (.vobj [(k, t)]) [] = [(k, .vals o t)] := by
  have hks : keySetEq ([(k, o)].map Prod.fst) ([(k, t)].map Prod.fst) = true := by
    simp [keySetEq]
  have hlook : lookupD [(k, t)] k = t := by
    simp [lookupD]
  rw [walk_diff.eq_def, if_neg (by simp [Val.tag])]
  show (if keySetEq ([(k, o)].map Prod.fst) ([(k, t)].map Prod.fst) = true
      then walkFields [(k, o)] [(k, t)] []
      else [([] ++ keysMark, .keys ([(k, o)].map Prod.fst) ([(k, t)].map Prod.fst))])
    = [(k, .vals o t)]
  rw [if_pos hks, walkFields, hlook, walkFields, walk_diff.eq_def, if_pos htag]
  show [(childPath [] k, DiffV.vals o t)] ++ [] = [(k, DiffV.vals o t)]
  simp [childPath]

/-- C8, amended, over arbitrary documents: (1) the loop body's verdict on any
scalar type-mismatch diff entry with a string candidate, at a path that is
not the locale field, not internal, and free of the
`\x7bkeys\x7d`/`\x7blen\x7d` markers, is a silent skip; (2) on a successful
validation every changed path and every `set_ops` entry originates from an
entry the loop judged a patch — a skipped entry contributes to neither;
(3) a type-mismatch entry at such a path whose candidate is NOT a string
makes the whole validation fail with `ValidationError`, whatever else the
documents contain; (4) every value in a returned `set_ops` mapping is a
string. -/
theorem C8_type_mismatch_policy :
    (∀ (lf p : Str) (ov : Val) (b : Str), ¬ p = lf →
      is_internal_field p = false → substrOf lenMark p = false →
      substrOf keysMark p = false → ¬ ov.tag = (Val.vstr b).tag →
      entry_verdict lf (p, .vals ov (.vstr b)) = .skip) ∧
    (∀ (D C : Val) (lf : Str) (r : DiffResult),
      validate_and_build_patch D C lf = .ok r →
      (∀ p ∈ r.changed_paths, ∃ e ∈ walk_diff D C [], ∃ mp v,
        entry_verdict lf e = .patch p mp v) ∧
      (∀ kv ∈ r.set_ops, ∃ e ∈ walk_diff D C [], ∃ p v,
        entry_verdict lf e = .patch p kv.1 v)) ∧
    (∀ (D C : Val) (lf p : Str) (ov tv : Val),
      (p, .vals ov tv) ∈ walk_diff D C [] → ¬ p = lf →
      is_internal_field p = false → substrOf lenMark p = false →
      substrOf keysMark p = false → ¬ ov.tag = tv.tag → (∀ b, ¬ tv = .vstr b) →
      ∃ m, validate_and_build_patch D C lf = .error m) ∧
    (∀ (D C : Val) (lf : Str) (r : DiffResult),
      validate_and_build_patch D C lf = .ok r →
      ∀ kv ∈ r.set_ops, ∃ b, kv.2 = Val.vstr b) := by
  refine ⟨?_, ?_, ?_, ?_⟩
  · intro lf p ov b h1 h2 h3 h4 h5
    exact entry_verdict_type_str lf p ov b h1 h2 h3 h4 h5
  · intro D C lf r hok
    cases C with
    | vobj gs =>
        have hprov := run_entries_provenance lf (walk_diff D (.vobj gs) []) [] [] r hok
        constructor
        · intro p hp
          rcases hprov.1 p hp with h | h
          · cases h
          · exact h
        · intro kv hkv
          rcases hprov.2 kv hkv with h | h
          · cases h
          · exact h
    | vnull => cases hok
    | vbool b => cases hok
    | vint n => cases hok
    | vstr a => cases hok
    | vtime t => cases hok
    | varr xs => cases hok
  · intro D C lf p ov tv hmem h1 h2 h3 h4 h5 h6
    cases C with
    | vobj gs =>
        have hv := entry_verdict_type_fail lf p ov tv h1 h2 h3 h4 h5 h6
        exact run_entries_error lf (walk_diff D (.vobj gs) []) [] []
          ⟨(p, .vals ov tv), hmem, _, hv⟩
    | vnull => exact ⟨_, rfl⟩
    | vbool b => exact ⟨_, rfl⟩
    | vint n => exact ⟨_, rfl⟩
    | vstr a => exact ⟨_, rfl⟩
    | vtime t => exact ⟨_, rfl⟩
    | varr xs => exact ⟨_, rfl⟩
  · intro D C lf r hok kv hm
    cases C with
    | vobj gs =>
        exact run_entries_strings lf (walk_diff D (.vobj gs) []) [] [] r
          (by intro kv h; cases h) hok kv hm
    | vnull => cases hok
    | vbool b => cases hok
    | vint n => cases hok
    | vstr a => cases hok
    | vtime t => cases hok
    | varr xs => cases hok

/-- Witness for C8: a BSON datetime re-serialised as a string draws a skip
verdict, and the same value changed to a number inside a two-field document
makes the whole validation fail. -/
theorem C8_witness :
    entry_verdict "locale".data ("when".data, .vals (.vtime 5) (.vstr "2020".data))
      = .skip ∧
    ∃ m, validate_and_build_patch
      (.vobj [("x".data, .vint 1), ("when".data, .vtime 5)])
      (.vobj [("x".data, .vint 1), ("when".data, .vint 7)]) "locale".data
      = .error m :=
  ⟨C8_type_mismatch_policy.1 "locale".data "when".data (.vtime 5) "2020".data
    (by decide) (by decide) (by decide) (by decide) (by decide),
   C8_type_mismatch_policy.2.2.1 (.vobj [("x".data, .vint 1), ("when".data, .vtime 5)])
    (.vobj [("x".data, .vint 1), ("when".data, .vint 7)]) "locale".data "when".data
    (.vtime 5) (.vint 7) (by decide) (by decide) (by decide) (by decide) (by decide)
    (by decide) (fun b => by simp)⟩

/-- C8, counterexample: a type mismatch whose candidate is not a string —
D = `{"_localiserL": null}`, C = `{"_localiserL": 7}` — is silently
tolerated because the path is internal, while the claim demands that every
non-string type mismatch fail with `ValidationError`. -/
theorem C8_counterexample :
    validate_and_build_patch (.vobj [("_localiserL".data, .vnull)])
      (.vobj [("_localiserL".data, .vint 7)]) "locale".data = .ok ⟨[], []⟩ := by
  decide

/-- C10: the `_ts` tolerance is asymmetric: any diff entry whose path is
exactly `_ts` is skipped by the validator (whatever its payload and whatever
the locale field), but a key-set difference in which `_ts` is dropped OR
added — in any document, with any sibling keys — fails with a
`ValidationError`, because the key-set tolerance only accepts differing keys
starting with `_localiser`; in particular dropping `_ts` from a singleton
document fails with the structural message. -/
theorem C10_ts_asymmetry :
    (∀ (lf : Str) (dv : DiffV), entry_verdict lf ("_ts".data, dv) = .skip) ∧
    (∀ (o t : Val) (lf : Str), ¬ o.tag = t.tag →
      validate_and_build_patch (.vobj [("_ts".data, o)]) (.vobj [("_ts".data, t)]) lf
        = .ok ⟨[], []⟩) ∧
    (∀ (D C : Val) (lf q : Str) (okeys tkeys : List Str),
      (q, .keys okeys tkeys) ∈ walk_diff D C [] → ¬ q = lf →
      is_internal_field q = false → substrOf lenMark q = false →
      substrOf keysMark q = true →
      (("_ts".data ∈ okeys ∧ ¬ "_ts".data ∈ tkeys) ∨
        ("_ts".data ∈ tkeys ∧ ¬ "_ts".data ∈ okeys)) →
      ∃ m, validate_and_build_patch D C lf = .error m) ∧
    (∀ (o : Val) (lf : Str), ¬ lf = keysMark →
      validate_and_build_patch (.vobj [("_ts".data, o)]) (.vobj []) lf
        = .error ("Structure changed at ".data ++ keysMark)) := by
  have hskip : ∀ (lf : Str) (dv : DiffV), entry_verdict lf ("_ts".data, dv) = .skip := by
    intro lf dv
    show (if ("_ts".data : Str) = lf then Verdict.skip
      else if is_internal_field "_ts".data then Verdict.skip
      else if substrOf lenMark "_ts".data then
        Verdict.fail ("Structure changed at ".data ++ "_ts".data)
      else if substrOf keysMark "_ts".data then _ else _) = Verdict.skip
    by_cases h : ("_ts".data : Str) = lf
    · rw [if_pos h]
    · rw [if_neg h, if_pos (show is_internal_field "_ts".data = true by decide)]
  refine ⟨hskip, ?_, ?_, ?_⟩
  · intro o t lf htag
    have hw := walk_singleton "_ts".data o t htag
    show run_entries lf (walk_diff (.vobj [("_ts".data, o)]) (.vobj [("_ts".data, t)]) [])
      [] [] = .ok ⟨[], []⟩
    rw [hw, run_entries, hskip lf (.vals o t), run_entries]
  · intro D C lf q okeys tkeys hmem h1 h2 h3 h4 hdiff
    cases C with
    | vobj gs =>
        have hv := entry_verdict_keys_fail lf q okeys tkeys h1 h2 h3 h4
          ⟨"_ts".data, hdiff, by decide⟩
        exact run_entries_error lf (walk_diff D (.vobj gs) []) [] []
          ⟨(q, .keys okeys tkeys), hmem, _, hv⟩
    | vnull => exact ⟨_, rfl⟩
    | vbool b => exact ⟨_, rfl⟩
    | vint n => exact ⟨_, rfl⟩
    | vstr a => exact ⟨_, rfl⟩
    | vtime t => exact ⟨_, rfl⟩
    | varr xs => exact ⟨_, rfl⟩
  · intro o lf hlf
    have hw : walk_diff (.vobj [("_ts".data, o)]) (.vobj []) []
        = [(keysMark, .keys ["_ts".data] [])] := by
      have hks : keySetEq ([("_ts".data, o)].map Prod.fst)
          (([] : List (Str × Val)).map Prod.fst) = false := by simp [keySetEq]
      rw [walk_diff]
      simp only [Val.tag, ne_eq, not_true_eq_false, if_neg, ite_false, hks]
      simp
    have hv : entry_verdict lf (keysMark, .keys ["_ts".data] []) =
        .fail ("Structure changed at ".data ++ keysMark) := by
      have h1 : ¬ (keysMark : Str) = lf := fun he => hlf he.symm
      have := entry_verdict_keys_fail lf keysMark ["_ts".data] [] h1 (by decide)
        (by decide) (by decide) ⟨"_ts".data, Or.inl (by decide), by decide⟩
      simpa using this
    show run_entries lf (walk_diff (.vobj [("_ts".data, o)]) (.vobj []) []) [] []
      = .error ("Structure changed at ".data ++ keysMark)
    rw [hw, run_entries, hv]

/-- Witness for C10: a changed value at `_ts` (a BSON datetime turned into a
number) validates with an empty result; adding `_ts` next to a sibling key
fails; dropping `_ts` from a singleton document fails with the structural
message. -/
theorem C10_witness :
    validate_and_build_patch (.vobj [("_ts".data, .vtime 5)])
      (.vobj [("_ts".data, .vint 7)]) "locale".data = .ok ⟨[], []⟩ ∧
    (∃ m, validate_and_build_patch (.vobj [("x".data, .vint 1)])
      (.vobj [("x".data, .vint 1), ("_ts".data, .vtime 5)]) "locale".data
      = .error m) ∧
    validate_and_build_patch (.vobj [("_ts".data, .vtime 5)]) (.vobj [])
      "locale".data = .error ("Structure changed at \x7bkeys\x7d".data) :=
  ⟨C10_ts_asymmetry.2.1 (.vtime 5) (.vint 7) "locale".data (by decide),
   C10_ts_asymmetry.2.2.1 (.vobj [("x".data, .vint 1)])
     (.vobj [("x".data, .vint 1), ("_ts".data, .vtime 5)]) "locale".data keysMark
     ["x".data] ["x".data, "_ts".data] (by decide) (by decide) (by decide) (by decide)
     (by decide) (Or.inr ⟨by decide, by decide⟩),
   C10_ts_asymmetry.2.2.2 (.vtime 5) "locale".data (by decide)⟩

/-!
### Supporting lemmas for the string-only-changes claim
-/

theorem cleanKey_spec (k : Str) (h : cleanKey k = true) :
    ¬ k = [] ∧ (∀ c ∈ k, ¬ c = '.' ∧ ¬ c = '[' ∧ ¬ c = ']' ∧ ¬ c = '{' ∧ ¬ c = '}') := by
  unfold cleanKey at h
  rw [Bool.and_eq_true] at h
  refine ⟨by simpa using h.1, ?_⟩
  intro c hc
  have := List.all_eq_true.mp h.2 c hc
  simpa using this

theorem braceFree_append (a b : Str) :
    braceFree (a ++ b) = (braceFree a && braceFree b) := by
  simp [braceFree, List.all_append]

theorem braceFree_child (pi k : Str) (hpi : braceFree pi = true) (hk : cleanKey k = true) :
    braceFree (childPath pi k) = true := by
  have hkb : braceFree k = true := by
    refine List.all_eq_true.mpr ?_
    intro c hc
    have := (cleanKey_spec k hk).2 c hc
    simp [this.2.2.2.1, this.2.2.2.2]
  by_cases h : pi = []
  · simp [childPath, h, hkb]
  · rw [childPath, if_neg h, braceFree_append, hpi]
    simpa [braceFree] using hkb

theorem braceFree_idx (pi : Str) (i : Nat) (hpi : braceFree pi = true) :
    braceFree (idxPath pi i) = true := by
  unfold idxPath
  rw [braceFree_append, hpi]
  simp only [Bool.true_and]
  refine List.all_eq_true.mpr ?_
  intro c hc
  rcases List.mem_cons.mp hc with rfl | hc
  · decide
  · rcases List.mem_append.mp hc with hc | hc
    · have := natDigits_notMeta i c hc
      simp [this.2.2.2.1, this.2.2.2.2]
    · simp at hc
      subst hc
      decide

theorem substr_marks_of_braceFree (p : Str) (hb : braceFree p = true) :
    substrOf lenMark p = false ∧ substrOf keysMark p = false :=
  ⟨substrOf_braceFree p lenMark hb braceMem_lenMark,
   substrOf_braceFree p keysMark hb braceMem_keysMark⟩

theorem mongoPath_keeps_clean (k : Str)
    (h : ∀ c ∈ k, ¬ c = '.' ∧ ¬ c = '[' ∧ ¬ c = ']' ∧ ¬ c = '{' ∧ ¬ c = '}') :
    mongoPath k = k :=
  mongoPath_clean k (fun c hc => ⟨(h c hc).2.1, (h c hc).2.2.1⟩)

theorem mongoPath_child (pi k : Str) (hpi : ¬ pi = []) (hk : cleanKey k = true) :
    mongoPath (childPath pi k) = mongoPath pi ++ '.' :: k := by
  rw [childPath, if_neg hpi]
  have : ('.' :: k : Str) = ['.'] ++ k := rfl
  rw [this, ← List.append_assoc, mongoPath_append, mongoPath_append,
    mongoPath_keeps_clean k (cleanKey_spec k hk).2]
  have hdot : mongoPath ['.'] = ['.'] := by decide
  rw [hdot, List.append_assoc]

theorem mongoPath_lbracket (p : Str) : mongoPath ('[' :: p) = '.' :: mongoPath p := by
  simp [mongoPath, List.filter_cons]

theorem mongoPath_natDigits (i : Nat) : mongoPath (natDigits i) = natDigits i :=
  mongoPath_keeps_clean (natDigits i) (natDigits_notMeta i)

theorem mongoPath_idx (pi : Str) (i : Nat) :
    mongoPath (idxPath pi i) = mongoPath pi ++ '.' :: natDigits i := by
  rw [idxPath, mongoPath_append, mongoPath_lbracket, mongoPath_append, mongoPath_natDigits]
  have : mongoPath [']'] = [] := by decide
  rw [this, List.append_nil]

theorem childPath_ne_nil (pi k : Str) (hk : cleanKey k = true) : ¬ childPath pi k = [] := by
  by_cases h : pi = []
  · simpa [childPath, h] using (cleanKey_spec k hk).1
  · simp [childPath, h]

theorem idxPath_ne_nil (pi : Str) (i : Nat) : ¬ idxPath pi i = [] := by
  simp [idxPath]

theorem cleanKeys_obj (fs : List (Str × Val)) (h : cleanKeys (.vobj fs) = true) :
    (fs.map Prod.fst).Nodup ∧ cleanFields fs = true := by
  unfold cleanKeys at h
  rw [Bool.and_eq_true] at h
  exact ⟨by simpa using h.1, h.2⟩

theorem cleanKeys_arr (xs : List Val) (h : cleanKeys (.varr xs) = true) :
    cleanElems xs = true := by
  unfold cleanKeys at h
  exact h

theorem cleanFields_cons (k : Str) (v : Val) (fs : List (Str × Val))
    (h : cleanFields ((k, v) :: fs) = true) :
    cleanKey k = true ∧ cleanKeys v = true ∧ cleanFields fs = true := by
  unfold cleanFields at h
  rw [Bool.and_eq_true, Bool.and_eq_true] at h
  exact ⟨h.1.1, h.1.2, h.2⟩

theorem cleanElems_cons (x : Val) (xs : List Val) (h : cleanElems (x :: xs) = true) :
    cleanKeys x = true ∧ cleanElems xs = true := by
  unfold cleanElems at h
  rw [Bool.and_eq_true] at h
  exact h

theorem cleanFields_mem (fs : List (Str × Val)) (h : cleanFields fs = true) :
    ∀ kv ∈ fs, cleanKey kv.1 = true ∧ cleanKeys kv.2 = true := by
  induction fs with
  | nil =>
      intro kv hm
      cases hm
  | cons kv0 fs ih =>
      intro kv hm
      obtain ⟨k0, v0⟩ := kv0
      obtain ⟨h1, h2, h3⟩ := cleanFields_cons k0 v0 fs h
      rcases List.mem_cons.mp hm with rfl | hm
      · exact ⟨h1, h2⟩
      · exact ih h3 kv hm

theorem map_ext_mem {α β : Type} (l : List α) (f g : α → β) (h : ∀ a ∈ l, f a = g a) :
    l.map f = l.map g := by
  induction l with
  | nil => rfl
  | cons a l ih =>
      rw [List.map_cons, List.map_cons, h a (by simp), ih (fun a ha => h a (by simp [ha]))]

theorem walk_obj (fs gs : List (Str × Val)) (pi : Str)
    (hk : keySetEq (fs.map Prod.fst) (gs.map Prod.fst) = true) :
    walk_diff (.vobj fs) (.vobj gs) pi = walkFields fs gs pi := by
  rw [walk_diff.eq_def, if_neg (by simp [Val.tag])]
  show (if keySetEq (fs.map Prod.fst) (gs.map Prod.fst) = true then walkFields fs gs pi
    else [(pi ++ keysMark, .keys (fs.map Prod.fst) (gs.map Prod.fst))]) = walkFields fs gs pi
  rw [if_pos hk]

theorem walk_arr (xs ys : List Val) (pi : Str) (hl : xs.length = ys.length) :
    walk_diff (.varr xs) (.varr ys) pi = walkElems xs ys 0 pi := by
  rw [walk_diff.eq_def, if_neg (by simp [Val.tag])]
  show (if xs.length ≠ ys.length then [(pi ++ lenMark, .lens xs.length ys.length)]
    else walkElems xs ys 0 pi) = walkElems xs ys 0 pi
  rw [if_neg (by simp [hl])]

theorem walk_str (a b : Str) (pi : Str) :
    walk_diff (.vstr a) (.vstr b) pi
      = if a = b then [] else [(pi, .vals (.vstr a) (.vstr b))] := by
  rw [walk_diff.eq_def, if_neg (by simp [Val.tag])]
  show (if Val.vstr a ≠ Val.vstr b then [(pi, DiffV.vals (.vstr a) (.vstr b))] else [])
    = if a = b then [] else [(pi, .vals (.vstr a) (.vstr b))]
  by_cases he : a = b
  · subst he
    rw [if_neg (by simp), if_pos rfl]
  · rw [if_pos (by simp [he]), if_neg he]

theorem walk_self_leaf (o : Val) (pi : Str) (h1 : ∀ fs, ¬ o = .vobj fs)
    (h2 : ∀ xs, ¬ o = .varr xs) : walk_diff o o pi = [] := by
  rw [walk_diff.eq_def, if_neg (by simp)]
  cases o with
  | vobj fs => exact absurd rfl (h1 fs)
  | varr xs => exact absurd rfl (h2 xs)
  | vnull => simp
  | vbool b => simp
  | vint n => simp
  | vstr a => simp
  | vtime t => simp

theorem csl_self_leaf (o : Val) (pi : Str) (h1 : ∀ fs, ¬ o = .vobj fs)
    (h2 : ∀ xs, ¬ o = .varr xs) : changedStringLeaves o o pi = [] := by
  cases o with
  | vobj fs => exact absurd rfl (h1 fs)
  | varr xs => exact absurd rfl (h2 xs)
  | vnull => rfl
  | vbool b => rfl
  | vint n => rfl
  | vstr a => simp [changedStringLeaves]
  | vtime t => rfl

theorem relMongo_self_leaf (o : Val) (h1 : ∀ fs, ¬ o = .vobj fs)
    (h2 : ∀ xs, ¬ o = .varr xs) : relMongo o o = [] := by
  cases o with
  | vobj fs => exact absurd rfl (h1 fs)
  | varr xs => exact absurd rfl (h2 xs)
  | vnull => rfl
  | vbool b => rfl
  | vint n => rfl
  | vstr a => simp [relMongo]
  | vtime t => rfl

theorem walkFields_csl (gs : List (Str × Val)) :
    ∀ (fs : List (Str × Val)) (pi : Str),
    (∀ kv ∈ fs, ∀ pi' : Str, walk_diff kv.2 (lookupD gs kv.1) pi'
      = (changedStringLeaves kv.2 (lookupD gs kv.1) pi').map
          (fun tr => (tr.1, DiffV.vals (.vstr tr.2.1) (.vstr tr.2.2)))) →
    walkFields fs gs pi = (cslFields fs gs pi).map
      (fun tr => (tr.1, DiffV.vals (.vstr tr.2.1) (.vstr tr.2.2))) := by
  intro fs
  induction fs with
  | nil =>
      intro pi _
      rfl
  | cons kv fs ih =>
      intro pi IH
      obtain ⟨k, v⟩ := kv
      rw [walkFields, cslFields, List.map_append,
        IH (k, v) (List.mem_cons_self _ _) (childPath pi k),
        ih pi (fun kv hm pi' => IH kv (List.mem_cons_of_mem _ hm) pi')]

theorem walkElems_csl :
    ∀ (xs ys : List Val) (i : Nat) (pi : Str),
    (∀ p ∈ xs.zip ys, ∀ pi' : Str, walk_diff p.1 p.2 pi'
      = (changedStringLeaves p.1 p.2 pi').map
          (fun tr => (tr.1, DiffV.vals (.vstr tr.2.1) (.vstr tr.2.2)))) →
    walkElems xs ys i pi = (cslElems xs ys i pi).map
      (fun tr => (tr.1, DiffV.vals (.vstr tr.2.1) (.vstr tr.2.2))) := by
  intro xs
  induction xs with
  | nil =>
      intro ys i pi _
      rfl
  | cons x xs ih =>
      intro ys i pi IH
      cases ys with
      | nil => rfl
      | cons y ys =>
          rw [walkElems, cslElems, List.map_append,
            IH (x, y) (by simp) (idxPath pi i),
            ih ys (i + 1) pi (fun p hp pi' => IH p (by simp [hp]) pi')]

theorem cslFields_ne (gs : List (Str × Val)) :
    ∀ (fs : List (Str × Val)) (pi : Str),
    (∀ kv ∈ fs, ∀ (pi' : Str) tr, tr ∈ changedStringLeaves kv.2 (lookupD gs kv.1) pi' →
      ¬ tr.2.1 = tr.2.2) →
    ∀ tr ∈ cslFields fs gs pi, ¬ tr.2.1 = tr.2.2 := by
  intro fs
  induction fs with
  | nil =>
      intro pi _ tr hm
      cases hm
  | cons kv fs ih =>
      intro pi IH tr hm
      obtain ⟨k, v⟩ := kv
      rw [cslFields] at hm
      rcases List.mem_append.mp hm with hm | hm
      · exact IH (k, v) (List.mem_cons_self _ _) (childPath pi k) tr hm
      · exact ih pi (fun kv h pi' => IH kv (List.mem_cons_of_mem _ h) pi') tr hm

theorem cslElems_ne :
    ∀ (xs ys : List Val) (i : Nat) (pi : Str),
    (∀ p ∈ xs.zip ys, ∀ (pi' : Str) tr, tr ∈ changedStringLeaves p.1 p.2 pi' →
      ¬ tr.2.1 = tr.2.2) →
    ∀ tr ∈ cslElems xs ys i pi, ¬ tr.2.1 = tr.2.2 := by
  intro xs
  induction xs with
  | nil =>
      intro ys i pi _ tr hm
      cases hm
  | cons x xs ih =>
      intro ys i pi IH tr hm
      cases ys with
      | nil => cases hm
      | cons y ys =>
          rw [cslElems] at hm
          rcases List.mem_append.mp hm with hm | hm
          · exact IH (x, y) (by simp) (idxPath pi i) tr hm
          · exact ih ys (i + 1) pi (fun p hp pi' => IH p (by simp [hp]) pi') tr hm

theorem cslFields_brace (gs : List (Str × Val)) :
    ∀ (fs : List (Str × Val)) (pi : Str), braceFree pi = true → cleanFields fs = true →
    (∀ kv ∈ fs, ∀ pi' : Str, braceFree pi' = true → cleanKeys kv.2 = true →
      ∀ tr ∈ changedStringLeaves kv.2 (lookupD gs kv.1) pi', braceFree tr.1 = true) →
    ∀ tr ∈ cslFields fs gs pi, braceFree tr.1 = true := by
  intro fs
  induction fs with
  | nil =>
      intro pi _ _ _ tr hm
      cases hm
  | cons kv fs ih =>
      intro pi hpi hcf IH tr hm
      obtain ⟨k, v⟩ := kv
      obtain ⟨hk, hv, hfs⟩ := cleanFields_cons k v fs hcf
      rw [cslFields] at hm
      rcases List.mem_append.mp hm with hm | hm
      · exact IH (k, v) (List.mem_cons_self _ _) (childPath pi k)
          (braceFree_child pi k hpi hk) hv tr hm
      · exact ih pi hpi hfs (fun kv h pi' => IH kv (List.mem_cons_of_mem _ h) pi') tr hm

theorem cslElems_brace :
    ∀ (xs ys : List Val) (i : Nat) (pi : Str), braceFree pi = true → cleanElems xs = true →
    (∀ p ∈ xs.zip ys, ∀ pi' : Str, braceFree pi' = true → cleanKeys p.1 = true →
      ∀ tr ∈ changedStringLeaves p.1 p.2 pi', braceFree tr.1 = true) →
    ∀ tr ∈ cslElems xs ys i pi, braceFree tr.1 = true := by
  intro xs
  induction xs with
  | nil =>
      intro ys i pi _ _ _ tr hm
      cases hm
  | cons x xs ih =>
      intro ys i pi hpi hce IH tr hm
      obtain ⟨hx, hxs⟩ := cleanElems_cons x xs hce
      cases ys with
      | nil => cases hm
      | cons y ys =>
          rw [cslElems] at hm
          rcases List.mem_append.mp hm with hm | hm
          · exact IH (x, y) (by simp) (idxPath pi i) (braceFree_idx pi i hpi) hx tr hm
          · exact ih ys (i + 1) pi hpi hxs
              (fun p hp pi' => IH p (by simp [hp]) pi') tr hm

theorem cslFields_mongo (gs : List (Str × Val)) :
    ∀ (fs : List (Str × Val)) (pi : Str), ¬ pi = [] → cleanFields fs = true →
    (∀ kv ∈ fs, ∀ pi' : Str, ¬ pi' = [] → cleanKeys kv.2 = true →
      (changedStringLeaves kv.2 (lookupD gs kv.1) pi').map (fun tr => mongoPath tr.1)
        = (relMongo kv.2 (lookupD gs kv.1)).map (fun r => mongoPath pi' ++ r)) →
    (cslFields fs gs pi).map (fun tr => mongoPath tr.1)
      = (relFields fs gs).map (fun r => mongoPath pi ++ r) := by
  intro fs
  induction fs with
  | nil =>
      intro pi _ _ _
      rfl
  | cons kv fs ih =>
      intro pi hpi hcf IH
      obtain ⟨k, v⟩ := kv
      obtain ⟨hk, hv, hfs⟩ := cleanFields_cons k v fs hcf
      rw [cslFields, relFields, List.map_append, List.map_append]
      congr 1
      · rw [IH (k, v) (List.mem_cons_self _ _) (childPath pi k)
          (childPath_ne_nil pi k hk) hv, mongoPath_child pi k hpi hk, List.map_map]
        refine map_ext_mem _ _ _ ?_
        intro r _
        show (mongoPath pi ++ '.' :: k) ++ r = mongoPath pi ++ '.' :: (k ++ r)
        rw [List.append_assoc]
        rfl
      · exact ih pi hpi hfs (fun kv h pi' => IH kv (List.mem_cons_of_mem _ h) pi')

theorem cslElems_mongo :
    ∀ (xs ys : List Val) (i : Nat) (pi : Str), ¬ pi = [] → cleanElems xs = true →
    (∀ p ∈ xs.zip ys, ∀ pi' : Str, ¬ pi' = [] → cleanKeys p.1 = true →
      (changedStringLeaves p.1 p.2 pi').map (fun tr => mongoPath tr.1)
        = (relMongo p.1 p.2).map (fun r => mongoPath pi' ++ r)) →
    (cslElems xs ys i pi).map (fun tr => mongoPath tr.1)
      = (relElems xs ys i).map (fun r => mongoPath pi ++ r) := by
  intro xs
  induction xs with
  | nil =>
      intro ys i pi _ _ _
      rfl
  | cons x xs ih =>
      intro ys i pi hpi hce IH
      obtain ⟨hx, hxs⟩ := cleanElems_cons x xs hce
      cases ys with
      | nil => rfl
      | cons y ys =>
          rw [cslElems, relElems, List.map_append, List.map_append]
          congr 1
          · rw [IH (x, y) (by simp) (idxPath pi i) (idxPath_ne_nil pi i) hx,
              mongoPath_idx pi i, List.map_map]
            refine map_ext_mem _ _ _ ?_
            intro r _
            show (mongoPath pi ++ '.' :: natDigits i) ++ r
              = mongoPath pi ++ '.' :: (natDigits i ++ r)
            rw [List.append_assoc]
            rfl
          · exact ih ys (i + 1) pi hpi hxs (fun p hp pi' => IH p (by simp [hp]) pi')

theorem relFields_mem (gs : List (Str × Val)) :
    ∀ (fs : List (Str × Val)) (x : Str), x ∈ relFields fs gs →
    ∃ kv, kv ∈ fs ∧ ∃ r, r ∈ relMongo kv.2 (lookupD gs kv.1) ∧ x = '.' :: (kv.1 ++ r) := by
  intro fs
  induction fs with
  | nil =>
      intro x hm
      cases hm
  | cons kv fs ih =>
      intro x hm
      obtain ⟨k, v⟩ := kv
      rw [relFields] at hm
      rcases List.mem_append.mp hm with hm | hm
      · rcases List.mem_map.mp hm with ⟨r, hr, he⟩
        exact ⟨(k, v), List.mem_cons_self _ _, r, hr, he.symm⟩
      · rcases ih x hm with ⟨kv, hkv, r, hr, he⟩
        exact ⟨kv, List.mem_cons_of_mem _ hkv, r, hr, he⟩

theorem relFields_shape (gs : List (Str × Val)) (fs : List (Str × Val)) (x : Str)
    (hm : x ∈ relFields fs gs) : ∃ r', x = '.' :: r' := by
  rcases relFields_mem gs fs x hm with ⟨kv, -, r, -, he⟩
  exact ⟨_, he⟩

theorem relElems_mem :
    ∀ (xs ys : List Val) (i : Nat) (x : Str), x ∈ relElems xs ys i →
    ∃ n r, i ≤ n ∧ (∃ p ∈ xs.zip ys, r ∈ relMongo p.1 p.2) ∧
      x = '.' :: (natDigits n ++ r) := by
  intro xs
  induction xs with
  | nil =>
      intro ys i x hm
      cases hm
  | cons x0 xs ih =>
      intro ys i x hm
      cases ys with
      | nil => cases hm
      | cons y0 ys =>
          rw [relElems] at hm
          rcases List.mem_append.mp hm with hm | hm
          · rcases List.mem_map.mp hm with ⟨r, hr, he⟩
            exact ⟨i, r, le_refl i, ⟨(x0, y0), by simp, hr⟩, he.symm⟩
          · rcases ih ys (i + 1) x hm with ⟨n, r, hn, ⟨p, hp, hr⟩, he⟩
            exact ⟨n, r, by omega, ⟨p, by simp [hp], hr⟩, he⟩

theorem relElems_shape (xs ys : List Val) (i : Nat) (x : Str)
    (hm : x ∈ relElems xs ys i) : ∃ r', x = '.' :: r' := by
  rcases relElems_mem xs ys i x hm with ⟨n, r, -, -, he⟩
  exact ⟨_, he⟩

theorem relMongo_shape (o t : Val) : ∀ r ∈ relMongo o t, r = [] ∨ ∃ r', r = '.' :: r' := by
  intro r hm
  cases o with
  | vobj fs =>
      cases t <;> try cases hm
      case vobj gs => exact Or.inr (relFields_shape _ _ r hm)
  | varr xs =>
      cases t <;> try cases hm
      case varr ys => exact Or.inr (relElems_shape xs ys 0 r hm)
  | vstr a =>
      cases t <;> try cases hm
      case vstr b =>
          rw [relMongo] at hm
          by_cases he : a = b
          · rw [if_pos he] at hm
            cases hm
          · rw [if_neg he] at hm
            rcases List.mem_singleton.mp hm with rfl
            exact Or.inl rfl
  | vnull => cases t <;> cases hm
  | vbool b => cases t <;> cases hm
  | vint n => cases t <;> cases hm
  | vtime t0 => cases t <;> cases hm

theorem relFields_nodup (gs : List (Str × Val)) :
    ∀ (fs : List (Str × Val)), (fs.map Prod.fst).Nodup → cleanFields fs = true →
    (∀ kv ∈ fs, cleanKeys kv.2 = true → (relMongo kv.2 (lookupD gs kv.1)).Nodup) →
    (relFields fs gs).Nodup := by
  intro fs
  induction fs with
  | nil =>
      intro _ _ _
      exact List.nodup_nil
  | cons kv fs ih =>
      intro hnd hcf IH
      obtain ⟨k, v⟩ := kv
      obtain ⟨hk, hv, hfs⟩ := cleanFields_cons k v fs hcf
      rw [List.map_cons, List.nodup_cons] at hnd
      rw [relFields]
      refine List.Nodup.append ?_ ?_ ?_
      · refine List.Nodup.map ?_ (IH (k, v) (List.mem_cons_self _ _) hv)
        intro r1 r2 he
        have : (k ++ r1 : Str) = k ++ r2 := by
          injection he
        exact List.append_cancel_left this
      · exact ih hnd.2 hfs (fun kv h => IH kv (List.mem_cons_of_mem _ h))
      · intro x hx1 hx2
        rcases List.mem_map.mp hx1 with ⟨r, hr, he⟩
        rcases relFields_mem gs fs x hx2 with ⟨kv', hkv', r', hr', he'⟩
        rw [← he] at he'
        have heq : (k ++ r : Str) = kv'.1 ++ r' := by
          injection he'
        have hk1 := cleanKey_spec k hk
        have hk2 := cleanKey_spec kv'.1 (cleanFields_mem fs hfs kv' hkv').1
        have hsep := seg_sep_inj k kv'.1 r r'
          (fun c hc => (hk1.2 c hc).1) (fun c hc => (hk2.2 c hc).1)
          (relMongo_shape v (lookupD gs k) r hr)
          (relMongo_shape kv'.2 (lookupD gs kv'.1) r' hr') heq
        have hmem : kv'.1 ∈ fs.map Prod.fst := List.mem_map_of_mem Prod.fst hkv'
        rw [← hsep.1] at hmem
        exact hnd.1 hmem

theorem relElems_nodup :
    ∀ (xs ys : List Val) (i : Nat), cleanElems xs = true →
    (∀ p ∈ xs.zip ys, cleanKeys p.1 = true → (relMongo p.1 p.2).Nodup) →
    (relElems xs ys i).Nodup := by
  intro xs
  induction xs with
  | nil =>
      intro ys i _ _
      exact List.nodup_nil
  | cons x xs ih =>
      intro ys i hce IH
      obtain ⟨hx, hxs⟩ := cleanElems_cons x xs hce
      cases ys with
      | nil => exact List.nodup_nil
      | cons y ys =>
          rw [relElems]
          refine List.Nodup.append ?_ ?_ ?_
          · refine List.Nodup.map ?_ (IH (x, y) (by simp) hx)
            intro r1 r2 he
            have : (natDigits i ++ r1 : Str) = natDigits i ++ r2 := by
              injection he
            exact List.append_cancel_left this
          · exact ih ys (i + 1) hxs (fun p hp => IH p (by simp [hp]))
          · intro z hz1 hz2
            rcases List.mem_map.mp hz1 with ⟨r, hr, he⟩
            rcases relElems_mem xs ys (i + 1) z hz2 with ⟨n, r', hn, ⟨p, hp, hr'⟩, he'⟩
            rw [← he] at he'
            have heq : (natDigits i ++ r : Str) = natDigits n ++ r' := by
              injection he'
            have hsep := seg_sep_inj (natDigits i) (natDigits n) r r'
              (fun c hc => (natDigits_notMeta i c hc).1)
              (fun c hc => (natDigits_notMeta n c hc).1)
              (relMongo_shape x y r hr) (relMongo_shape p.1 p.2 r' hr') heq
            have : i = n := natDigits_inj i n hsep.1
            omega

theorem strOnly_main : ∀ (o t : Val), StrOnly o t →
    (∀ pi : Str, walk_diff o t pi = (changedStringLeaves o t pi).map
      (fun tr => (tr.1, DiffV.vals (.vstr tr.2.1) (.vstr tr.2.2)))) ∧
    (∀ (pi : Str) tr, tr ∈ changedStringLeaves o t pi → ¬ tr.2.1 = tr.2.2) ∧
    (∀ pi : Str, braceFree pi = true → cleanKeys o = true →
      ∀ tr ∈ changedStringLeaves o t pi, braceFree tr.1 = true) ∧
    (∀ pi : Str, ¬ pi = [] → cleanKeys o = true →
      (changedStringLeaves o t pi).map (fun tr => mongoPath tr.1)
        = (relMongo o t).map (fun r => mongoPath pi ++ r)) ∧
    (cleanKeys o = true → (relMongo o t).Nodup) := by
  intro o t hso
  induction hso with
  | null =>
      refine ⟨?_, ?_, ?_, ?_, ?_⟩ <;>
        simp [walk_self_leaf Val.vnull _ (fun fs h => by cases h) (fun xs h => by cases h),
          csl_self_leaf Val.vnull _ (fun fs h => by cases h) (fun xs h => by cases h),
          relMongo_self_leaf Val.vnull (fun fs h => by cases h) (fun xs h => by cases h)]
  | bool b =>
      refine ⟨?_, ?_, ?_, ?_, ?_⟩ <;>
        simp [walk_self_leaf (Val.vbool b) _ (fun fs h => by cases h) (fun xs h => by cases h),
          csl_self_leaf (Val.vbool b) _ (fun fs h => by cases h) (fun xs h => by cases h),
          relMongo_self_leaf (Val.vbool b) (fun fs h => by cases h) (fun xs h => by cases h)]
  | int n =>
      refine ⟨?_, ?_, ?_, ?_, ?_⟩ <;>
        simp [walk_self_leaf (Val.vint n) _ (fun fs h => by cases h) (fun xs h => by cases h),
          csl_self_leaf (Val.vint n) _ (fun fs h => by cases h) (fun xs h => by cases h),
          relMongo_self_leaf (Val.vint n) (fun fs h => by cases h) (fun xs h => by cases h)]
  | time t0 =>
      refine ⟨?_, ?_, ?_, ?_, ?_⟩ <;>
        simp [walk_self_leaf (Val.vtime t0) _ (fun fs h => by cases h) (fun xs h => by cases h),
          csl_self_leaf (Val.vtime t0) _ (fun fs h => by cases h) (fun xs h => by cases h),
          relMongo_self_leaf (Val.vtime t0) (fun fs h => by cases h) (fun xs h => by cases h)]
  | str a b =>
      have hcsl : ∀ pi : Str, changedStringLeaves (.vstr a) (.vstr b) pi
          = if a = b then [] else [(pi, a, b)] := fun pi => rfl
      have hrel : relMongo (.vstr a) (.vstr b)
          = if a = b then [] else [[]] := rfl
      refine ⟨?_, ?_, ?_, ?_, ?_⟩
      · intro pi
        rw [walk_str, hcsl]
        by_cases he : a = b
        · rw [if_pos he, if_pos he]
          rfl
        · rw [if_neg he, if_neg he]
          rfl
      · intro pi tr hm
        rw [hcsl] at hm
        by_cases he : a = b
        · rw [if_pos he] at hm
          cases hm
        · rw [if_neg he] at hm
          rcases List.mem_singleton.mp hm with rfl
          simpa using he
      · intro pi hpi _ tr hm
        rw [hcsl] at hm
        by_cases he : a = b
        · rw [if_pos he] at hm
          cases hm
        · rw [if_neg he] at hm
          rcases List.mem_singleton.mp hm with rfl
          simpa using hpi
      · intro pi _ _
        rw [hcsl, hrel]
        by_cases he : a = b
        · rw [if_pos he, if_pos he]
          rfl
        · rw [if_neg he, if_neg he]
          simp
      · intro _
        rw [hrel]
        by_cases he : a = b
        · rw [if_pos he]
          exact List.nodup_nil
        · rw [if_neg he]
          simp
  | arr xs ys hlen hzip ih =>
      refine ⟨?_, ?_, ?_, ?_, ?_⟩
      · intro pi
        rw [walk_arr xs ys pi hlen]
        exact walkElems_csl xs ys 0 pi (fun p hp pi' => (ih p hp).1 pi')
      · intro pi tr hm
        exact cslElems_ne xs ys 0 pi
          (fun p hp pi' tr' hm' => (ih p hp).2.1 pi' tr' hm') tr hm
      · intro pi hpi hck tr hm
        exact cslElems_brace xs ys 0 pi hpi (cleanKeys_arr xs hck)
          (fun p hp pi' h1 h2 tr' hm' => (ih p hp).2.2.1 pi' h1 h2 tr' hm') tr hm
      · intro pi hpi hck
        exact cslElems_mongo xs ys 0 pi hpi (cleanKeys_arr xs hck)
          (fun p hp pi' h1 h2 => (ih p hp).2.2.2.1 pi' h1 h2)
      · intro hck
        exact relElems_nodup xs ys 0 (cleanKeys_arr xs hck)
          (fun p hp h => (ih p hp).2.2.2.2 h)
  | obj fs gs hkeys hvals ih =>
      refine ⟨?_, ?_, ?_, ?_, ?_⟩
      · intro pi
        rw [walk_obj fs gs pi hkeys]
        exact walkFields_csl gs fs pi (fun kv hm pi' => (ih kv hm).1 pi')
      · intro pi tr hm
        exact cslFields_ne gs fs pi
          (fun kv h pi' tr' hm' => (ih kv h).2.1 pi' tr' hm') tr hm
      · intro pi hpi hck tr hm
        obtain ⟨hnd, hcf⟩ := cleanKeys_obj fs hck
        exact cslFields_brace gs fs pi hpi hcf
          (fun kv h pi' h1 h2 tr' hm' => (ih kv h).2.2.1 pi' h1 h2 tr' hm') tr hm
      · intro pi hpi hck
        obtain ⟨hnd, hcf⟩ := cleanKeys_obj fs hck
        exact cslFields_mongo gs fs pi hpi hcf
          (fun kv h pi' h1 h2 => (ih kv h).2.2.2.1 pi' h1 h2)
      · intro hck
        obtain ⟨hnd, hcf⟩ := cleanKeys_obj fs hck
        exact relFields_nodup gs fs hnd hcf (fun kv h h2 => (ih kv h).2.2.2.2 h2)

theorem cslFields_root_mem (gs : List (Str × Val)) :
    ∀ fs : List (Str × Val), cleanFields fs = true →
    (∀ kv ∈ fs, StrOnly kv.2 (lookupD gs kv.1)) →
    ∀ x ∈ (cslFields fs gs []).map (fun tr => mongoPath tr.1),
    ∃ kv, kv ∈ fs ∧ ∃ r, r ∈ relMongo kv.2 (lookupD gs kv.1) ∧ x = kv.1 ++ r := by
  intro fs
  induction fs with
  | nil =>
      intro _ _ x hm
      cases hm
  | cons kv fs ih =>
      intro hcf hvals x hm
      obtain ⟨k, v⟩ := kv
      obtain ⟨hk, hv, hfs⟩ := cleanFields_cons k v fs hcf
      have hknil := (cleanKey_spec k hk).1
      have hmain := strOnly_main v (lookupD gs k) (hvals (k, v) (List.mem_cons_self _ _))
      have hchild : childPath [] k = k := rfl
      rw [cslFields, List.map_append] at hm
      rcases List.mem_append.mp hm with hm | hm
      · rw [hchild, hmain.2.2.2.1 k hknil hv,
          mongoPath_keeps_clean k (cleanKey_spec k hk).2] at hm
        rcases List.mem_map.mp hm with ⟨r, hr, he⟩
        exact ⟨(k, v), List.mem_cons_self _ _, r, hr, he.symm⟩
      · rcases ih hfs (fun kv h => hvals kv (List.mem_cons_of_mem _ h)) x hm with
          ⟨kv, hkv, r, hr, he⟩
        exact ⟨kv, List.mem_cons_of_mem _ hkv, r, hr, he⟩

theorem cslFields_root_nodup (gs : List (Str × Val)) :
    ∀ fs : List (Str × Val), (fs.map Prod.fst).Nodup → cleanFields fs = true →
    (∀ kv ∈ fs, StrOnly kv.2 (lookupD gs kv.1)) →
    ((cslFields fs gs []).map (fun tr => mongoPath tr.1)).Nodup := by
  intro fs
  induction fs with
  | nil =>
      intro _ _ _
      exact List.nodup_nil
  | cons kv fs ih =>
      intro hnd hcf hvals
      obtain ⟨k, v⟩ := kv
      obtain ⟨hk, hv, hfs⟩ := cleanFields_cons k v fs hcf
      have hknil := (cleanKey_spec k hk).1
      have hmain := strOnly_main v (lookupD gs k) (hvals (k, v) (List.mem_cons_self _ _))
      have hchild : childPath [] k = k := rfl
      rw [List.map_cons, List.nodup_cons] at hnd
      rw [cslFields, List.map_append]
      refine List.Nodup.append ?_ ?_ ?_
      · rw [hchild, hmain.2.2.2.1 k hknil hv,
          mongoPath_keeps_clean k (cleanKey_spec k hk).2]
        refine List.Nodup.map ?_ (hmain.2.2.2.2 hv)
        intro r1 r2 he
        exact List.append_cancel_left he
      · exact ih hnd.2 hfs (fun kv h => hvals kv (List.mem_cons_of_mem _ h))
      · intro x hx1 hx2
        rw [hchild, hmain.2.2.2.1 k hknil hv,
          mongoPath_keeps_clean k (cleanKey_spec k hk).2] at hx1
        rcases List.mem_map.mp hx1 with ⟨r, hr, he⟩
        rcases cslFields_root_mem gs fs hfs
          (fun kv h => hvals kv (List.mem_cons_of_mem _ h)) x hx2 with
          ⟨kv', hkv', r', hr', he'⟩
        rw [← he] at he'
        have hk2 := cleanKey_spec kv'.1 (cleanFields_mem fs hfs kv' hkv').1
        have hsep := seg_sep_inj k kv'.1 r r'
          (fun c hc => ((cleanKey_spec k hk).2 c hc).1) (fun c hc => (hk2.2 c hc).1)
          (relMongo_shape v (lookupD gs k) r hr)
          (relMongo_shape kv'.2 (lookupD gs kv'.1) r' hr') he'
        have hmem : kv'.1 ∈ fs.map Prod.fst := List.mem_map_of_mem Prod.fst hkv'
        rw [← hsep.1] at hmem
        exact hnd.1 hmem

theorem run_entries_patches (lf : Str) :
    ∀ (l : List (Str × Str × Str)) (cp : List Str) (so : List (Str × Val)),
    (∀ tr ∈ l, entry_verdict lf (tr.1, .vals (.vstr tr.2.1) (.vstr tr.2.2))
      = .patch tr.1 (mongoPath tr.1) (.vstr tr.2.2)) →
    (∀ tr ∈ l, ¬ mongoPath tr.1 ∈ so.map Prod.fst) →
    (l.map (fun tr => mongoPath tr.1)).Nodup →
    run_entries lf (l.map (fun tr => (tr.1, DiffV.vals (.vstr tr.2.1) (.vstr tr.2.2)))) cp so
      = .ok ⟨cp ++ l.map (fun tr => tr.1),
             so ++ l.map (fun tr => (mongoPath tr.1, Val.vstr tr.2.2))⟩ := by
  intro l
  induction l with
  | nil =>
      intro cp so _ _ _
      simp [run_entries]
  | cons tr l ih =>
      intro cp so hv hfresh hnd
      rw [List.map_cons, run_entries, hv tr (List.mem_cons_self _ _)]
      show run_entries lf
        (l.map (fun tr => (tr.1, DiffV.vals (Val.vstr tr.2.1) (Val.vstr tr.2.2))))
        (cp ++ [tr.1]) (dictInsert so (mongoPath tr.1) (Val.vstr tr.2.2)) = _
      rw [dictInsert_absent so (mongoPath tr.1) _ (hfresh tr (List.mem_cons_self _ _))]
      rw [List.map_cons, List.nodup_cons] at hnd
      have hrec := ih (cp ++ [tr.1]) (so ++ [(mongoPath tr.1, Val.vstr tr.2.2)])
        (fun tr' h => hv tr' (List.mem_cons_of_mem _ h))
        (fun tr' h => by
          rw [List.map_append, List.mem_append]
          rintro (hc | hc)
          · exact hfresh tr' (List.mem_cons_of_mem _ h) hc
          · simp at hc
            exact hnd.1 (hc ▸ List.mem_map_of_mem _ h))
        hnd.2
      rw [hrec]
      simp

/-- C2, amended: for every document D and candidate C that differs from D
only at string leaves (same runtime types, same map key sets, same sequence
lengths, no diff entries at the locale field or internal paths), where every
map key of D is nonempty, occurs once in its map, and contains none of the
path metacharacters `. [ ] \x7b \x7d`: `validate_and_build_patch` succeeds,
`changed_paths` is exactly the list of changed string leaves' paths in
traversal order, and `set_ops` maps each such path (in store dot notation)
to the candidate's string at that path — applying it to D reproduces C at
those paths; in particular D = `{"title": "Hello", "id": 7}`,
C = `{"title": "Hallo", "id": 7}` yields patch `{"title": "Hallo"}` and
changed_paths `["title"]`. -/
theorem C2_string_only_changes (fs gs : List (Str × Val)) (lf : Str)
    (hso : StrOnly (.vobj fs) (.vobj gs))
    (hck : cleanKeys (.vobj fs) = true)
    (hdiff : ∀ e ∈ walk_diff (.vobj fs) (.vobj gs) [],
      ¬ e.1 = lf ∧ is_internal_field e.1 = false) :
    validate_and_build_patch (.vobj fs) (.vobj gs) lf
      = .ok ⟨(changedStringLeaves (.vobj fs) (.vobj gs) []).map (fun tr => tr.1),
             (changedStringLeaves (.vobj fs) (.vobj gs) []).map
               (fun tr => (mongoPath tr.1, Val.vstr tr.2.2))⟩ ∧
    (∀ tr ∈ changedStringLeaves (.vobj fs) (.vobj gs) [],
      getF ((changedStringLeaves (.vobj fs) (.vobj gs) []).map
        (fun tr => (mongoPath tr.1, Val.vstr tr.2.2))) (mongoPath tr.1)
        = some (.vstr tr.2.2)) ∧
    validate_and_build_patch
      (.vobj [("title".data, .vstr "Hello".data), ("id".data, .vint 7)])
      (.vobj [("title".data, .vstr "Hallo".data), ("id".data, .vint 7)]) "locale".data
      = .ok ⟨["title".data], [("title".data, .vstr "Hallo".data)]⟩ := by
  obtain ⟨hW, hNE, hB, hM, hN⟩ := strOnly_main _ _ hso
  have hvals : ∀ kv ∈ fs, StrOnly kv.2 (lookupD gs kv.1) := by
    cases hso with
    | obj _ _ hk hv => exact hv
  obtain ⟨hndk, hcf⟩ := cleanKeys_obj fs hck
  have hnd : ((changedStringLeaves (.vobj fs) (.vobj gs) []).map
      (fun tr => mongoPath tr.1)).Nodup :=
    cslFields_root_nodup gs fs hndk hcf hvals
  have hconds : ∀ tr ∈ changedStringLeaves (.vobj fs) (.vobj gs) [],
      ¬ tr.1 = lf ∧ is_internal_field tr.1 = false := by
    intro tr hm
    have hmem : (tr.1, DiffV.vals (.vstr tr.2.1) (.vstr tr.2.2))
        ∈ walk_diff (.vobj fs) (.vobj gs) [] := by
      rw [hW []]
      exact List.mem_map_of_mem _ hm
    exact hdiff _ hmem
  have hbrace := hB [] (by decide) hck
  have hverd : ∀ tr ∈ changedStringLeaves (.vobj fs) (.vobj gs) [],
      entry_verdict lf (tr.1, .vals (.vstr tr.2.1) (.vstr tr.2.2))
        = .patch tr.1 (mongoPath tr.1) (.vstr tr.2.2) := by
    intro tr hm
    have hc := hconds tr hm
    have hb := hbrace tr hm
    have marks := substr_marks_of_braceFree tr.1 hb
    exact entry_verdict_str lf tr.1 tr.2.1 tr.2.2 hc.1 hc.2 marks.1 marks.2
      (hNE [] tr hm)
  refine ⟨?_, ?_, by decide⟩
  · show run_entries lf (walk_diff (.vobj fs) (.vobj gs) []) [] [] = _
    rw [hW [], run_entries_patches lf _ [] [] hverd (by simp) hnd]
    simp
  · intro tr hm
    refine getF_keyed _ ?_ (mongoPath tr.1, Val.vstr tr.2.2) (List.mem_map_of_mem _ hm)
    rw [List.map_map]
    exact hnd

/-- Witness for C2: the theorem applied to the concrete Hello/Hallo
scenario. -/
theorem C2_witness :
    validate_and_build_patch
      (.vobj [("title".data, .vstr "Hello".data), ("id".data, .vint 7)])
      (.vobj [("title".data, .vstr "Hallo".data), ("id".data, .vint 7)]) "locale".data
      = .ok ⟨(changedStringLeaves
          (.vobj [("title".data, .vstr "Hello".data), ("id".data, .vint 7)])
          (.vobj [("title".data, .vstr "Hallo".data), ("id".data, .vint 7)]) []).map
            (fun tr => tr.1),
         (changedStringLeaves
          (.vobj [("title".data, .vstr "Hello".data), ("id".data, .vint 7)])
          (.vobj [("title".data, .vstr "Hallo".data), ("id".data, .vint 7)]) []).map
            (fun tr => (mongoPath tr.1, Val.vstr tr.2.2))⟩ :=
  (C2_string_only_changes
    [("title".data, .vstr "Hello".data), ("id".data, .vint 7)]
    [("title".data, .vstr "Hallo".data), ("id".data, .vint 7)]
    "locale".data
    (by
      refine StrOnly.obj _ _ (by decide) ?_
      intro kv hkv
      simp only [List.mem_cons, List.mem_singleton] at hkv
      rcases hkv with rfl | rfl | h
      · exact StrOnly.str "Hello".data "Hallo".data
      · exact StrOnly.int 7
      · cases h)
    (by decide) (by decide)).1

/-- C2, counterexample: a map key containing the literal marker `\x7blen\x7d`
— D = `{"a\x7blen\x7d": "x"}`, C = `{"a\x7blen\x7d": "y"}` differs only at a
string leaf yet fails validation with a structural error, because the key's
text collides with the synthetic length marker in the path string. -/
theorem C2_counterexample :
    validate_and_build_patch
      (.vobj [("a\x7blen\x7d".data, .vstr "x".data)])
      (.vobj [("a\x7blen\x7d".data, .vstr "y".data)]) "locale".data
      = .error ("Structure changed at a\x7blen\x7d".data) := by
  decide

end Localiser
